import Mathlib

/-!
Verification development for the MPI implementation of the distributed
Dijkstra algorithm in p3.c.  The per-worker state, the block-column
layout, the local and global minimum reductions, the relaxation loop and
the round structure are shallowly embedded as executable Lean functions;
arrays become functions over natural-number indices, and the one memory
access whose index can leave the allocated local block (the read of
mat at index u * loc_n + v during relaxation) is modelled with Option so
that an out-of-bounds access is visible as a failing round.
-/

namespace P3

/-- Value of the INFINITY macro in p3.c: the no-edge sentinel. -/
def INFINITY : ℕ := 1000000

/-- Per-worker state of the Dijkstra engine: the loc_dist, loc_pred and
known arrays of p3.c, modelled as functions over local indices. -/
structure WState where
  dist : ℕ → ℕ
  pred : ℕ → ℕ
  known : ℕ → Bool

/-- Flat index into the full row-major n x n matrix of the local entry idx
of worker k under the block-column layout built by Build_blk_col_type:
local entry (i, j) with idx = i * loc_n + j lives at row i, column
k * loc_n + j of the full matrix. -/
def blkColIndex (n loc_n k idx : ℕ) : ℕ :=
  (idx / loc_n) * n + k * loc_n + idx % loc_n

/-- Worker k reading entry idx of its local block loc_mat, as distributed
by MPI_Scatter with the block-column datatype in Read_matrix. -/
def locMat (mat : ℕ → ℕ) (n loc_n k idx : ℕ) : ℕ :=
  mat (blkColIndex n loc_n k idx)

/-- Guarded access to the local block: the block holds n * loc_n ints, so
an index outside that range is an out-of-bounds read (undefined behavior
in the C program), modelled as none. -/
def locMatAcc (mat : ℕ → ℕ) (n loc_n k idx : ℕ) : Option ℕ :=
  if idx < n * loc_n then some (locMat mat n loc_n k idx) else none

/-- One iteration of the scan in Find_min_dist (lines 359-366 of p3.c):
the accumulator carries (loc_u, loc_min_dist). -/
def fmdStep (dist : ℕ → ℕ) (kn : ℕ → Bool) (acc : ℕ × ℕ) (v : ℕ) : ℕ × ℕ :=
  if kn v then acc
  else if dist v < acc.2 then (v, dist v) else acc

/-- The (loc_u, loc_min_dist) accumulator of the Find_min_dist scan after
visiting local indices 0 .. m - 1, starting from (INFINITY, INFINITY). -/
def FmdAcc (dist : ℕ → ℕ) (kn : ℕ → Bool) (m : ℕ) : ℕ × ℕ :=
  (List.range m).foldl (fmdStep dist kn) (INFINITY, INFINITY)

/-- Find_min_dist of p3.c: scans local indices 0 .. loc_n - 1 and returns
the local index of the minimum distance among unknown vertices with
distance strictly below INFINITY, or INFINITY when there is none. -/
def Find_min_dist (dist : ℕ → ℕ) (kn : ℕ → Bool) (loc_n : ℕ) : ℕ :=
  (FmdAcc dist kn loc_n).1

/-- The (my_min[0], my_min[1]) pair worker k contributes to the global
reduction (lines 298-306 of p3.c): loc_u is computed once by
Find_min_dist and my_min[0] rereads loc_dist[loc_u]. -/
def myMin (st : WState) (loc_n k : ℕ) : ℕ × ℕ :=
  if Find_min_dist st.dist st.known loc_n < INFINITY then
    (st.dist (Find_min_dist st.dist st.known loc_n),
     Find_min_dist st.dist st.known loc_n + k * loc_n)
  else (INFINITY, INFINITY)

/-- The MPI_MINLOC combiner on MPI_2INT pairs: minimum first component,
ties resolved to the minimum second component. -/
def minlocCombine (a b : ℕ × ℕ) : ℕ × ℕ :=
  if a.1 < b.1 then a
  else if b.1 < a.1 then b
  else (a.1, min a.2 b.2)

/-- MPI_Allreduce with MPI_MINLOC over the p contributions. -/
def allreduceMinloc (p : ℕ) (contrib : ℕ → ℕ × ℕ) : ℕ × ℕ :=
  ((List.range p).map contrib).foldl minlocCombine (INFINITY, INFINITY)

/-- The (glbl_min[0], glbl_min[1]) pair every worker receives from the
reduction at line 309 of p3.c. -/
def globalMin (p loc_n : ℕ) (st : ℕ → WState) : ℕ × ℕ :=
  allreduceMinloc p (fun k => myMin (st k) loc_n k)

/-- The relaxation loop of lines 324-332 of p3.c, one worker, iterating
over the list of local indices still to visit.  The read of the local
block at index u * loc_n + v is guarded; an out-of-bounds read aborts
the round with none. -/
def relaxLoop (mat : ℕ → ℕ) (n loc_n k u md : ℕ) (kn : ℕ → Bool) :
    List ℕ → (ℕ → ℕ) → (ℕ → ℕ) → Option ((ℕ → ℕ) × (ℕ → ℕ))
  | [], dist, pred => some (dist, pred)
  | v :: vs, dist, pred =>
    if kn v then relaxLoop mat n loc_n k u md kn vs dist pred
    else
      match locMatAcc mat n loc_n k (u * loc_n + v) with
      | none => none
      | some w =>
        if md + w < dist v then
          relaxLoop mat n loc_n k u md kn vs
            (Function.update dist v (md + w)) (Function.update pred v u)
        else relaxLoop mat n loc_n k u md kn vs dist pred

/-- The known array of worker k after the ownership resolution of lines
316-321 of p3.c: the owner of the winning vertex u (the worker whose rank
equals u / loc_n) marks local index u % loc_n known. -/
def knAfter (loc_n u k : ℕ) (kn : ℕ → Bool) : ℕ → Bool :=
  if u / loc_n == k then Function.update kn (u % loc_n) true else kn

/-- The per-worker tail of one round (lines 316-332 of p3.c): the owner of
the winning vertex u marks it known, then the worker relaxes its local
block. -/
def workerRound (mat : ℕ → ℕ) (n loc_n md u k : ℕ) (st : WState) :
    Option WState :=
  match relaxLoop mat n loc_n k u md (knAfter loc_n u k st.known)
      (List.range loc_n) st.dist st.pred with
  | none => none
  | some dp => some ⟨dp.1, dp.2, knAfter loc_n u k st.known⟩

/-- One full round of the main loop of Dijkstra (lines 293-333 of p3.c):
the global reduction followed by every worker marking and relaxing.  The
round fails (none) when any worker performs an out-of-bounds read. -/
def dijkstraRound (mat : ℕ → ℕ) (n p loc_n : ℕ) (st : ℕ → WState) :
    Option (ℕ → WState) :=
  if _h : ∀ k < p, (workerRound mat n loc_n (globalMin p loc_n st).1
      (globalMin p loc_n st).2 k (st k)).isSome = true then
    some (fun k =>
      if k < p then
        (workerRound mat n loc_n (globalMin p loc_n st).1
          (globalMin p loc_n st).2 k (st k)).getD (st k)
      else st k)
  else none

/-- Iterating t rounds. -/
def dijkstraIter (mat : ℕ → ℕ) (n p loc_n : ℕ) :
    ℕ → (ℕ → WState) → Option (ℕ → WState)
  | 0, st => some st
  | t + 1, st =>
    match dijkstraRound mat n p loc_n st with
    | none => none
    | some st' => dijkstraIter mat n p loc_n t st'

/-- Initialization of worker k (lines 281-289 of p3.c): dist from row 0 of
the local block, pred all 0, and only worker 0 marks local vertex 0 (the
source) known. -/
def dijkInit (mat : ℕ → ℕ) (n loc_n k : ℕ) : WState :=
  { dist := fun v => locMat mat n loc_n k v
    pred := fun _ => 0
    known := fun v => k == 0 && v == 0 }

/-- The initial distributed state. -/
def initState (mat : ℕ → ℕ) (n loc_n : ℕ) : ℕ → WState :=
  fun k => dijkInit mat n loc_n k

/-- The whole engine: n - 1 rounds from the initial state, with
loc_n = n / p as computed in main. -/
def dijkstraRun (mat : ℕ → ℕ) (n p : ℕ) : Option (ℕ → WState) :=
  dijkstraIter mat n p (n / p) (n - 1) (initState mat n (n / p))

/-- Distance of global vertex g in the gathered output (Print_dists
gathers the per-worker loc_dist arrays contiguously). -/
def gDist (loc_n : ℕ) (st : ℕ → WState) (g : ℕ) : ℕ :=
  (st (g / loc_n)).dist (g % loc_n)

/-- Predecessor of global vertex g in the gathered output. -/
def gPred (loc_n : ℕ) (st : ℕ → WState) (g : ℕ) : ℕ :=
  (st (g / loc_n)).pred (g % loc_n)

/-- Known flag of global vertex g on its owning worker. -/
def gKnown (loc_n : ℕ) (st : ℕ → WState) (g : ℕ) : Bool :=
  (st (g / loc_n)).known (g % loc_n)

/-- The gathered distance vector assembled on the coordinator by the
contiguous MPI_Gather in Print_dists: p blocks of loc_n entries. -/
def gatherDists (p loc_n : ℕ) (st : ℕ → WState) : List ℕ :=
  (List.range (p * loc_n)).map (fun g => gDist loc_n st g)

/-- Setup plus engine plus gather: the program reads n, computes
loc_n = n / p with no divisibility check, runs the engine and gathers the
distances. -/
def programRun (mat : ℕ → ℕ) (n p : ℕ) : Option (List ℕ) :=
  (dijkstraRun mat n p).map (gatherDists p (n / p))

/-- The coordinator side of Print_matrix: MPI_Gather with the block-column
datatype writes entry idx of worker k at flat position
blkColIndex n loc_n k idx, so the reconstructed matrix reads entry m from
worker m % n / loc_n at local index (m / n) * loc_n + m % n % loc_n. -/
def gatherMatrix (n loc_n : ℕ) (blocks : ℕ → ℕ → ℕ) (m : ℕ) : ℕ :=
  blocks (m % n / loc_n) ((m / n) * loc_n + m % n % loc_n)

/-- The block a worker receives from the scatter in Read_matrix. -/
def scatterBlock (mat : ℕ → ℕ) (n loc_n k : ℕ) : ℕ → ℕ :=
  fun idx => locMat mat n loc_n k idx

/-! ### Sequential reference

The sequential single-process Dijkstra reference of the specification
(section 8), stated over the full matrix: initialize distances from row 0
with the source known, then n - 1 times select the unknown vertex of
minimum distance (ties to the lowest id), mark it known and relax. -/

/-- State of the sequential reference over global vertices. -/
structure SeqState where
  dist : ℕ → ℕ
  pred : ℕ → ℕ
  known : ℕ → Bool

/-- Sequential reference initialization: dist from row 0 of the matrix,
predecessors 0, the source 0 known. -/
def seqInit (mat : ℕ → ℕ) : SeqState :=
  { dist := fun v => mat v
    pred := fun _ => 0
    known := fun v => v == 0 }

/-- One step of the sequential minimum scan. -/
def seqFmdStep (st : SeqState) (acc : Option (ℕ × ℕ)) (v : ℕ) : Option (ℕ × ℕ) :=
  if st.known v then acc
  else
    match acc with
    | none => some (st.dist v, v)
    | some du => if st.dist v < du.1 then some (st.dist v, v) else acc

/-- The sequential scan accumulator after vertices 0 .. m - 1. -/
def SeqFmdAcc (st : SeqState) (m : ℕ) : Option (ℕ × ℕ) :=
  (List.range m).foldl (seqFmdStep st) none

/-- Sequential reference minimum selection: the unknown vertex of minimum
distance, lowest id on ties; none when every vertex is known. -/
def seqFindMin (n : ℕ) (st : SeqState) : Option (ℕ × ℕ) :=
  SeqFmdAcc st n

/-- The mark-and-relax part of one sequential round, with winning distance
d and winning vertex u. -/
def seqUpdate (mat : ℕ → ℕ) (n d u : ℕ) (st : SeqState) : SeqState :=
  { dist := fun v =>
      if v < n ∧ Function.update st.known u true v = false ∧
          d + mat (u * n + v) < st.dist v
      then d + mat (u * n + v) else st.dist v
    pred := fun v =>
      if v < n ∧ Function.update st.known u true v = false ∧
          d + mat (u * n + v) < st.dist v
      then u else st.pred v
    known := Function.update st.known u true }

/-- One round of the sequential reference: select, mark known, relax. -/
def seqStep (mat : ℕ → ℕ) (n : ℕ) (st : SeqState) : SeqState :=
  match seqFindMin n st with
  | none => st
  | some du => seqUpdate mat n du.1 du.2 st

/-- The sequential reference after t rounds. -/
def seqIter (mat : ℕ → ℕ) (n : ℕ) : ℕ → SeqState
  | 0 => seqInit mat
  | t + 1 => seqStep mat n (seqIter mat n t)

/-- The sequential reference run: n - 1 rounds. -/
def seqRun (mat : ℕ → ℕ) (n : ℕ) : SeqState :=
  seqIter mat n (n - 1)

/-! ### Arithmetic helpers for the block layout -/

lemma block_div {loc_n v : ℕ} (k : ℕ) (hv : v < loc_n) :
    (k * loc_n + v) / loc_n = k := by
  have hl : 0 < loc_n := lt_of_le_of_lt (Nat.zero_le v) hv
  rw [mul_comm, Nat.mul_add_div hl, Nat.div_eq_of_lt hv, add_zero]

lemma block_mod {loc_n v : ℕ} (k : ℕ) (hv : v < loc_n) :
    (k * loc_n + v) % loc_n = v := by
  rw [mul_comm, Nat.mul_add_mod, Nat.mod_eq_of_lt hv]

lemma block_decomp {loc_n : ℕ} (hl : 0 < loc_n) (g : ℕ) :
    (g / loc_n) * loc_n + g % loc_n = g := by
  rw [mul_comm]; exact Nat.div_add_mod g loc_n

lemma block_lt {p loc_n k v : ℕ} (hk : k < p) (hv : v < loc_n) :
    k * loc_n + v < p * loc_n :=
  calc k * loc_n + v < k * loc_n + loc_n := by omega
  _ = (k + 1) * loc_n := by ring
  _ ≤ p * loc_n := Nat.mul_le_mul_right loc_n hk

/-! ### Characterization of the Find_min_dist scan -/

lemma fmdAcc_succ (dist : ℕ → ℕ) (kn : ℕ → Bool) (m : ℕ) :
    FmdAcc dist kn (m + 1) = fmdStep dist kn (FmdAcc dist kn m) m := by
  unfold FmdAcc
  rw [List.range_succ, List.foldl_append]
  rfl

/-- Invariant of the Find_min_dist scan: either nothing below INFINITY has
been seen among unknown entries, or the accumulator holds the first
unknown entry attaining the minimum. -/
def FmdInv (dist : ℕ → ℕ) (kn : ℕ → Bool) (m : ℕ) (acc : ℕ × ℕ) : Prop :=
  (acc = (INFINITY, INFINITY) ∧ ∀ v, v < m → kn v = true ∨ INFINITY ≤ dist v)
  ∨ (acc.1 < m ∧ kn acc.1 = false ∧ acc.2 = dist acc.1 ∧ acc.2 < INFINITY ∧
      ∀ v, v < m → kn v = false →
        acc.2 < dist v ∨ (acc.2 = dist v ∧ acc.1 ≤ v))

lemma fmdAcc_inv (dist : ℕ → ℕ) (kn : ℕ → Bool) :
    ∀ m, FmdInv dist kn m (FmdAcc dist kn m) := by
  intro m
  induction m with
  | zero =>
    left
    exact ⟨rfl, fun v hv => absurd hv (Nat.not_lt_zero v)⟩
  | succ m ih =>
    rw [fmdAcc_succ]
    unfold fmdStep
    rcases ih with ⟨hacc, hall⟩ | ⟨h1, h2, h3, h4, h5⟩
    · by_cases hk : kn m = true
      · rw [if_pos hk]
        left
        refine ⟨hacc, fun v hv => ?_⟩
        rcases (by omega : v < m ∨ v = m) with h | h
        · exact hall v h
        · exact Or.inl (h ▸ hk)
      · rw [if_neg hk, hacc]
        by_cases hd : dist m < (INFINITY, INFINITY).2
        · rw [if_pos hd]
          right
          refine ⟨by omega, by simpa using hk, rfl, hd, fun v hv hkv => ?_⟩
          rcases (by omega : v < m ∨ v = m) with h | h
          · rcases hall v h with h' | h'
            · exact absurd h' (by simpa using hkv)
            · exact Or.inl (lt_of_lt_of_le hd h')
          · exact Or.inr ⟨by rw [h], by omega⟩
        · rw [if_neg hd]
          left
          refine ⟨rfl, fun v hv => ?_⟩
          rcases (by omega : v < m ∨ v = m) with h | h
          · exact hall v h
          · right
            subst h
            simpa using hd
    · by_cases hk : kn m = true
      · rw [if_pos hk]
        right
        refine ⟨by omega, h2, h3, h4, fun v hv hkv => ?_⟩
        rcases (by omega : v < m ∨ v = m) with h | h
        · exact h5 v h hkv
        · exact absurd (h ▸ hkv) (by simp [hk])
      · rw [if_neg hk]
        by_cases hd : dist m < (FmdAcc dist kn m).2
        · rw [if_pos hd]
          right
          refine ⟨by omega, by simpa using hk, rfl, lt_trans hd h4,
            fun v hv hkv => ?_⟩
          rcases (by omega : v < m ∨ v = m) with h | h
          · rcases h5 v h hkv with h' | h'
            · exact Or.inl (lt_trans hd h')
            · rcases h' with ⟨he, _⟩
              exact Or.inl (by omega)
          · exact Or.inr ⟨by rw [h], by omega⟩
        · rw [if_neg hd]
          right
          refine ⟨by omega, h2, h3, h4, fun v hv hkv => ?_⟩
          rcases (by omega : v < m ∨ v = m) with h | h
          · exact h5 v h hkv
          · subst h
            rcases Nat.lt_or_ge (FmdAcc dist kn v).2 (dist v) with h' | h'
            · exact Or.inl h'
            · exact Or.inr ⟨by omega, by omega⟩

/-- Shape of a contribution: either the sentinel pair, or a pair whose
distance component is strictly below INFINITY. -/
lemma myMin_shape (st : WState) (loc_n k : ℕ) :
    myMin st loc_n k = (INFINITY, INFINITY) ∨ (myMin st loc_n k).1 < INFINITY := by
  rcases fmdAcc_inv st.dist st.known loc_n with ⟨hacc, _⟩ | ⟨_, _, h3, h4, _⟩
  · left
    unfold myMin Find_min_dist
    rw [hacc]
    norm_num
  · by_cases hb : Find_min_dist st.dist st.known loc_n < INFINITY
    · right
      unfold myMin
      rw [if_pos hb]
      rw [Find_min_dist] at hb ⊢
      exact h3 ▸ h4
    · left
      unfold myMin
      rw [if_neg hb]

/-- Full characterization of the contribution of one worker (assuming the
local block is not larger than the sentinel, so that a found index cannot
collide with INFINITY). -/
lemma myMin_spec (st : WState) (loc_n k : ℕ) (hloc : loc_n ≤ INFINITY) :
    (myMin st loc_n k = (INFINITY, INFINITY) ∧
       ∀ v, v < loc_n → st.known v = true ∨ INFINITY ≤ st.dist v)
    ∨ (∃ v₀, v₀ < loc_n ∧ st.known v₀ = false ∧ st.dist v₀ < INFINITY ∧
         myMin st loc_n k = (st.dist v₀, v₀ + k * loc_n) ∧
         ∀ v, v < loc_n → st.known v = false →
           st.dist v₀ < st.dist v ∨ (st.dist v₀ = st.dist v ∧ v₀ ≤ v)) := by
  rcases fmdAcc_inv st.dist st.known loc_n with ⟨hacc, hall⟩ | ⟨h1, h2, h3, h4, h5⟩
  · left
    refine ⟨?_, hall⟩
    unfold myMin Find_min_dist
    rw [hacc]
    norm_num
  · right
    refine ⟨(FmdAcc st.dist st.known loc_n).1, h1, h2, h3 ▸ h4, ?_,
      fun v hv hkv => h3 ▸ h5 v hv hkv⟩
    unfold myMin Find_min_dist
    rw [if_pos (lt_of_lt_of_le h1 hloc)]

/-! ### The MINLOC fold -/

/-- Lexicographic order on (distance, id) pairs: exactly the order whose
minimum MPI_MINLOC computes. -/
def lexLe (a b : ℕ × ℕ) : Prop :=
  a.1 < b.1 ∨ (a.1 = b.1 ∧ a.2 ≤ b.2)

lemma lexLe_refl (a : ℕ × ℕ) : lexLe a a := Or.inr ⟨rfl, le_refl _⟩

lemma lexLe_trans {a b c : ℕ × ℕ} (h1 : lexLe a b) (h2 : lexLe b c) :
    lexLe a c := by
  unfold lexLe at *
  omega

lemma lexLe_antisymm {a b : ℕ × ℕ} (h1 : lexLe a b) (h2 : lexLe b a) :
    a = b := by
  unfold lexLe at *
  have h3 : a.1 = b.1 := by omega
  have h4 : a.2 = b.2 := by omega
  exact Prod.ext h3 h4

lemma minlocCombine_cases (a b : ℕ × ℕ) :
    minlocCombine a b = a ∨ minlocCombine a b = b := by
  unfold minlocCombine
  by_cases h1 : a.1 < b.1
  · left; rw [if_pos h1]
  · by_cases h2 : b.1 < a.1
    · right; rw [if_neg h1, if_pos h2]
    · rw [if_neg h1, if_neg h2]
      rcases le_total a.2 b.2 with h | h
      · left; rw [min_eq_left h]
      · right
        rw [min_eq_right h]
        have : a.1 = b.1 := by omega
        rw [this]

lemma minlocCombine_le_left (a b : ℕ × ℕ) : lexLe (minlocCombine a b) a := by
  unfold minlocCombine lexLe
  by_cases h1 : a.1 < b.1
  · rw [if_pos h1]; exact Or.inr ⟨rfl, le_refl _⟩
  · by_cases h2 : b.1 < a.1
    · rw [if_neg h1, if_pos h2]; exact Or.inl h2
    · rw [if_neg h1, if_neg h2]
      exact Or.inr ⟨rfl, min_le_left _ _⟩

lemma minlocCombine_le_right (a b : ℕ × ℕ) : lexLe (minlocCombine a b) b := by
  unfold minlocCombine lexLe
  by_cases h1 : a.1 < b.1
  · rw [if_pos h1]; exact Or.inl h1
  · by_cases h2 : b.1 < a.1
    · rw [if_neg h1, if_pos h2]; exact Or.inr ⟨rfl, le_refl _⟩
    · rw [if_neg h1, if_neg h2]
      exact Or.inr ⟨by omega, min_le_right _ _⟩

lemma foldl_minloc_mem (l : List (ℕ × ℕ)) :
    ∀ init, l.foldl minlocCombine init = init ∨ l.foldl minlocCombine init ∈ l := by
  induction l with
  | nil => intro init; left; rfl
  | cons q l ih =>
    intro init
    rw [List.foldl_cons]
    rcases ih (minlocCombine init q) with h | h
    · rcases minlocCombine_cases init q with h' | h'
      · left; rw [h, h']
      · right; rw [h, h']; exact List.mem_cons_self q l
    · right; exact List.mem_cons_of_mem q h

lemma foldl_minloc_le_init (l : List (ℕ × ℕ)) :
    ∀ init, lexLe (l.foldl minlocCombine init) init := by
  induction l with
  | nil => intro init; exact lexLe_refl init
  | cons q l ih =>
    intro init
    rw [List.foldl_cons]
    exact lexLe_trans (ih (minlocCombine init q)) (minlocCombine_le_left init q)

lemma foldl_minloc_le (l : List (ℕ × ℕ)) :
    ∀ init q, q ∈ l → lexLe (l.foldl minlocCombine init) q := by
  induction l with
  | nil => intro _ q hq; exact absurd hq (List.not_mem_nil q)
  | cons a l ih =>
    intro init q hq
    rw [List.foldl_cons]
    rcases List.mem_cons.mp hq with h | h
    · subst h
      exact lexLe_trans (foldl_minloc_le_init l (minlocCombine init q))
        (minlocCombine_le_right init q)
    · exact ih (minlocCombine init a) q h

/-- Membership and minimality of the global reduction result. -/
lemma globalMin_mem_le (p loc_n : ℕ) (st : ℕ → WState) :
    (globalMin p loc_n st = (INFINITY, INFINITY) ∨
       ∃ k, k < p ∧ globalMin p loc_n st = myMin (st k) loc_n k) ∧
    ∀ k, k < p → lexLe (globalMin p loc_n st) (myMin (st k) loc_n k) := by
  constructor
  · rcases foldl_minloc_mem
      ((List.range p).map (fun k => myMin (st k) loc_n k)) (INFINITY, INFINITY)
      with h | h
    · exact Or.inl h
    · right
      rcases List.mem_map.mp h with ⟨k, hk, hkq⟩
      exact ⟨k, List.mem_range.mp hk, hkq.symm⟩
  · intro k hk
    exact foldl_minloc_le _ _ _
      (List.mem_map_of_mem _ (List.mem_range.mpr hk))

/-- Full characterization of the global reduction: either every worker is
out of candidates below the sentinel, or the result is the pair of the
globally minimum unknown distance with the lowest global vertex id among
the per-worker first achievers. -/
lemma globalMin_spec (p loc_n : ℕ) (st : ℕ → WState) (hloc : loc_n ≤ INFINITY) :
    (globalMin p loc_n st = (INFINITY, INFINITY) ∧
       ∀ k, k < p → ∀ v, v < loc_n →
         (st k).known v = true ∨ INFINITY ≤ (st k).dist v)
    ∨ (∃ k₀, k₀ < p ∧ ∃ v₀, v₀ < loc_n ∧
         (st k₀).known v₀ = false ∧ (st k₀).dist v₀ < INFINITY ∧
         globalMin p loc_n st = ((st k₀).dist v₀, v₀ + k₀ * loc_n) ∧
         ∀ k, k < p → ∀ v, v < loc_n → (st k).known v = false →
           (st k₀).dist v₀ < (st k).dist v ∨
           ((st k₀).dist v₀ = (st k).dist v ∧
             v₀ + k₀ * loc_n ≤ v + k * loc_n)) := by
  obtain ⟨hmem, hle⟩ := globalMin_mem_le p loc_n st
  by_cases hr : globalMin p loc_n st = (INFINITY, INFINITY)
  · left
    refine ⟨hr, fun k hk v hv => ?_⟩
    rcases myMin_spec (st k) loc_n k hloc with ⟨_, hall⟩ | ⟨v₁, _, _, hlt, heq, _⟩
    · exact hall v hv
    · exfalso
      have := hle k hk
      rw [hr, heq] at this
      rcases this with h | h
      · simp only at h; omega
      · rcases h with ⟨h, _⟩; simp only at h; omega
  · right
    rcases hmem with h | ⟨k₀, hk₀, heq₀⟩
    · exact absurd h hr
    rcases myMin_spec (st k₀) loc_n k₀ hloc with ⟨hs, _⟩ | hfound
    · exact absurd (heq₀.trans hs) hr
    rcases hfound with ⟨v₀, hv₀, hkn₀, hd₀, hmy₀, hloc₀⟩
    refine ⟨k₀, hk₀, v₀, hv₀, hkn₀, hd₀, heq₀.trans hmy₀, ?_⟩
    intro k hk v hv hkv
    rcases myMin_spec (st k) loc_n k hloc with ⟨_, hall⟩ | hfd
    · rcases hall v hv with h | h
      · exact absurd h (by simp [hkv])
      · exact Or.inl (lt_of_lt_of_le hd₀ h)
    rcases hfd with ⟨v₁, hv₁, _, _, hmy₁, hloc₁⟩
    have hlex := hle k hk
    rw [heq₀.trans hmy₀, hmy₁] at hlex
    have hcmp := hloc₁ v hv hkv
    rcases hlex with h | ⟨h, hids⟩
    · simp only at h
      rcases hcmp with h' | ⟨h', _⟩
      · exact Or.inl (lt_trans h h')
      · exact Or.inl (by omega)
    · simp only at h hids
      rcases hcmp with h' | ⟨h', hv₁v⟩
      · exact Or.inl (by omega)
      · refine Or.inr ⟨by omega, le_trans hids ?_⟩
        exact Nat.add_le_add_right hv₁v _

/-! ### The relaxation loop -/

lemma locMatAcc_some {mat : ℕ → ℕ} {n loc_n k idx : ℕ} (h : idx < n * loc_n) :
    locMatAcc mat n loc_n k idx = some (locMat mat n loc_n k idx) := if_pos h

lemma locMatAcc_none {mat : ℕ → ℕ} {n loc_n k idx : ℕ} (h : ¬ idx < n * loc_n) :
    locMatAcc mat n loc_n k idx = none := if_neg h

/-- A worker with every listed vertex known leaves its state untouched. -/
lemma relaxLoop_all_known (mat : ℕ → ℕ) (n loc_n k u md : ℕ) (kn : ℕ → Bool) :
    ∀ l (dist pred : ℕ → ℕ), (∀ v ∈ l, kn v = true) →
    relaxLoop mat n loc_n k u md kn l dist pred = some (dist, pred) := by
  intro l
  induction l with
  | nil => intro dist pred _; rfl
  | cons v vs ih =>
    intro dist pred h
    show (if kn v then relaxLoop mat n loc_n k u md kn vs dist pred else _) = _
    rw [if_pos (h v (List.mem_cons_self v vs))]
    exact ih dist pred (fun w hw => h w (List.mem_cons_of_mem v hw))

/-- Distances never increase during the relaxation loop. -/
lemma relaxLoop_mono (mat : ℕ → ℕ) (n loc_n k u md : ℕ) (kn : ℕ → Bool) :
    ∀ (l : List ℕ) (dist pred : ℕ → ℕ) dp,
    relaxLoop mat n loc_n k u md kn l dist pred = some dp →
    ∀ v, dp.1 v = dist v ∨ dp.1 v < dist v := by
  intro l
  induction l with
  | nil =>
    intro dist pred dp h v
    cases h
    exact Or.inl rfl
  | cons w ws ih =>
    intro dist pred dp h v
    by_cases hk : kn w
    · rw [show relaxLoop mat n loc_n k u md kn (w :: ws) dist pred =
          relaxLoop mat n loc_n k u md kn ws dist pred from if_pos hk] at h
      exact ih dist pred dp h v
    · rw [show relaxLoop mat n loc_n k u md kn (w :: ws) dist pred =
          (match locMatAcc mat n loc_n k (u * loc_n + w) with
           | none => none
           | some wt =>
             if md + wt < dist w then
               relaxLoop mat n loc_n k u md kn ws
                 (Function.update dist w (md + wt)) (Function.update pred w u)
             else relaxLoop mat n loc_n k u md kn ws dist pred)
          from if_neg hk] at h
      rcases hacc : locMatAcc mat n loc_n k (u * loc_n + w) with _ | wt
      · rw [hacc] at h; cases h
      · rw [hacc] at h
        simp only at h
        by_cases hupd : md + wt < dist w
        · rw [if_pos hupd] at h
          have := ih _ _ dp h v
          by_cases hvw : v = w
          · subst hvw
            rw [Function.update_same] at this
            omega
          · rwa [Function.update_noteq hvw] at this
        · rw [if_neg hupd] at h
          exact ih dist pred dp h v

/-- If the winning index makes every matrix access out of bounds, then a
worker that still holds an unknown listed vertex aborts the round. -/
lemma relaxLoop_oob (mat : ℕ → ℕ) (n loc_n k u md : ℕ) (kn : ℕ → Bool)
    (hub : n * loc_n ≤ u * loc_n) :
    ∀ (l : List ℕ) (dist pred : ℕ → ℕ), (∃ v ∈ l, kn v = false) →
    relaxLoop mat n loc_n k u md kn l dist pred = none := by
  intro l
  induction l with
  | nil => intro dist pred h; rcases h with ⟨v, hv, _⟩; exact absurd hv (List.not_mem_nil v)
  | cons w ws ih =>
    intro dist pred h
    by_cases hk : kn w
    · rw [show relaxLoop mat n loc_n k u md kn (w :: ws) dist pred =
          relaxLoop mat n loc_n k u md kn ws dist pred from if_pos hk]
      rcases h with ⟨v, hv, hkv⟩
      rcases List.mem_cons.mp hv with h | h
      · exact absurd (h ▸ hkv) (by simp [hk])
      · exact ih dist pred ⟨v, h, hkv⟩
    · rw [show relaxLoop mat n loc_n k u md kn (w :: ws) dist pred =
          (match locMatAcc mat n loc_n k (u * loc_n + w) with
           | none => none
           | some wt =>
             if md + wt < dist w then
               relaxLoop mat n loc_n k u md kn ws
                 (Function.update dist w (md + wt)) (Function.update pred w u)
             else relaxLoop mat n loc_n k u md kn ws dist pred)
          from if_neg hk]
      rw [locMatAcc_none (by omega)]

/-- When the winning vertex id is in range every access is in bounds: the
relaxation loop succeeds and updates distances and predecessors pointwise,
exactly at the unknown vertices whose distance strictly improves. -/
lemma relaxLoop_inbounds (mat : ℕ → ℕ) (n loc_n k u md : ℕ) (kn : ℕ → Bool)
    (hun : u < n) :
    ∀ (l : List ℕ), l.Nodup → (∀ v ∈ l, v < loc_n) → ∀ dist pred,
    relaxLoop mat n loc_n k u md kn l dist pred =
      some (fun w => if w ∈ l ∧ kn w = false ∧
                        md + locMat mat n loc_n k (u * loc_n + w) < dist w
                     then md + locMat mat n loc_n k (u * loc_n + w) else dist w,
            fun w => if w ∈ l ∧ kn w = false ∧
                        md + locMat mat n loc_n k (u * loc_n + w) < dist w
                     then u else pred w) := by
  intro l
  induction l with
  | nil =>
    intro _ _ dist pred
    show some (dist, pred) = _
    refine congrArg some (Prod.ext (funext fun w => ?_) (funext fun w => ?_)) <;>
      dsimp only <;> simp
  | cons v vs ih =>
    intro hnd hbd dist pred
    have hv_loc : v < loc_n := hbd v (List.mem_cons_self v vs)
    have hvs_nd : vs.Nodup := (List.nodup_cons.mp hnd).2
    have hv_nin : v ∉ vs := (List.nodup_cons.mp hnd).1
    have hbd' : ∀ w ∈ vs, w < loc_n := fun w hw => hbd w (List.mem_cons_of_mem v hw)
    have hidx : u * loc_n + v < n * loc_n := by
      calc u * loc_n + v < u * loc_n + loc_n := by omega
      _ = (u + 1) * loc_n := by ring
      _ ≤ n * loc_n := Nat.mul_le_mul_right _ hun
    by_cases hk : kn v
    · rw [show relaxLoop mat n loc_n k u md kn (v :: vs) dist pred =
          relaxLoop mat n loc_n k u md kn vs dist pred from if_pos hk]
      rw [ih hvs_nd hbd' dist pred]
      refine congrArg some (Prod.ext (funext fun w => ?_) (funext fun w => ?_)) <;>
        dsimp only <;> by_cases hw : w = v
      · subst hw
        rw [if_neg (by simp [hv_nin]), if_neg (by simp [hk])]
      · simp only [List.mem_cons, hw, false_or]
      · subst hw
        rw [if_neg (by simp [hv_nin]), if_neg (by simp [hk])]
      · simp only [List.mem_cons, hw, false_or]
    · rw [show relaxLoop mat n loc_n k u md kn (v :: vs) dist pred =
          (match locMatAcc mat n loc_n k (u * loc_n + v) with
           | none => none
           | some wt =>
             if md + wt < dist v then
               relaxLoop mat n loc_n k u md kn vs
                 (Function.update dist v (md + wt)) (Function.update pred v u)
             else relaxLoop mat n loc_n k u md kn vs dist pred)
          from if_neg hk, locMatAcc_some hidx]
      simp only
      by_cases hupd : md + locMat mat n loc_n k (u * loc_n + v) < dist v
      · rw [if_pos hupd, ih hvs_nd hbd']
        refine congrArg some (Prod.ext (funext fun w => ?_) (funext fun w => ?_)) <;>
          dsimp only <;> by_cases hw : w = v
        · rw [hw]
          rw [if_neg (by simp [hv_nin]),
            if_pos ⟨List.mem_cons_self v vs, by simpa using hk, hupd⟩,
            Function.update_same]
        · rw [Function.update_noteq hw]
          simp only [List.mem_cons, hw, false_or]
        · rw [hw]
          rw [if_neg (by simp [hv_nin]),
            if_pos ⟨List.mem_cons_self v vs, by simpa using hk, hupd⟩,
            Function.update_same]
        · rw [Function.update_noteq hw, Function.update_noteq hw]
          simp only [List.mem_cons, hw, false_or]
      · rw [if_neg hupd, ih hvs_nd hbd']
        refine congrArg some (Prod.ext (funext fun w => ?_) (funext fun w => ?_)) <;>
          dsimp only <;> by_cases hw : w = v
        · rw [hw]
          rw [if_neg (by simp [hv_nin]), if_neg (fun h => hupd h.2.2)]
        · simp only [List.mem_cons, hw, false_or]
        · rw [hw]
          rw [if_neg (by simp [hv_nin]), if_neg (fun h => hupd h.2.2)]
        · simp only [List.mem_cons, hw, false_or]

/-! ### Round structure -/

lemma workerRound_some_elim {mat : ℕ → ℕ} {n loc_n md u k : ℕ} {st : WState}
    {w : WState} (h : workerRound mat n loc_n md u k st = some w) :
    ∃ dp, relaxLoop mat n loc_n k u md (knAfter loc_n u k st.known)
        (List.range loc_n) st.dist st.pred = some dp ∧
      w = ⟨dp.1, dp.2, knAfter loc_n u k st.known⟩ := by
  unfold workerRound at h
  rcases hr : relaxLoop mat n loc_n k u md (knAfter loc_n u k st.known)
      (List.range loc_n) st.dist st.pred with _ | dp
  · rw [hr] at h; cases h
  · rw [hr] at h
    simp only [Option.some.injEq] at h
    exact ⟨dp, rfl, h.symm⟩

lemma dijkstraRound_some_elim {mat : ℕ → ℕ} {n p loc_n : ℕ}
    {st st' : ℕ → WState} (h : dijkstraRound mat n p loc_n st = some st') :
    (∀ k, k < p → ∃ w, workerRound mat n loc_n (globalMin p loc_n st).1
        (globalMin p loc_n st).2 k (st k) = some w ∧ st' k = w) ∧
    (∀ k, ¬ k < p → st' k = st k) := by
  unfold dijkstraRound at h
  by_cases hall : ∀ k < p, (workerRound mat n loc_n (globalMin p loc_n st).1
      (globalMin p loc_n st).2 k (st k)).isSome = true
  · rw [dif_pos hall] at h
    simp only [Option.some.injEq] at h
    constructor
    · intro k hk
      rcases Option.isSome_iff_exists.mp (hall k hk) with ⟨w, hw⟩
      refine ⟨w, hw, ?_⟩
      rw [← h]
      simp [hk, hw]
    · intro k hk
      rw [← h]
      simp [hk]
  · rw [dif_neg hall] at h; cases h

lemma dijkstraRound_isSome_intro {mat : ℕ → ℕ} {n p loc_n : ℕ}
    {st : ℕ → WState}
    (h : ∀ k < p, (workerRound mat n loc_n (globalMin p loc_n st).1
      (globalMin p loc_n st).2 k (st k)).isSome = true) :
    (dijkstraRound mat n p loc_n st).isSome = true := by
  unfold dijkstraRound
  rw [dif_pos h]
  rfl

lemma knAfter_mono {loc_n u k : ℕ} {kn : ℕ → Bool} {v : ℕ}
    (h : kn v = true) : knAfter loc_n u k kn v = true := by
  unfold knAfter
  by_cases hb : u / loc_n == k
  · rw [if_pos hb]
    by_cases hv : v = u % loc_n
    · rw [hv, Function.update_same]
    · rwa [Function.update_noteq hv]
  · rwa [if_neg hb]

/-- Distances never increase across one round. -/
lemma dijkstraRound_dist_mono {mat : ℕ → ℕ} {n p loc_n : ℕ}
    {st st' : ℕ → WState} (h : dijkstraRound mat n p loc_n st = some st')
    (k v : ℕ) :
    (st' k).dist v = (st k).dist v ∨ (st' k).dist v < (st k).dist v := by
  obtain ⟨h1, h2⟩ := dijkstraRound_some_elim h
  by_cases hk : k < p
  · rcases h1 k hk with ⟨w, hw, hst⟩
    rcases workerRound_some_elim hw with ⟨dp, hdp, hww⟩
    rw [hst, hww]
    exact relaxLoop_mono mat n loc_n k (globalMin p loc_n st).2
      (globalMin p loc_n st).1 (knAfter loc_n (globalMin p loc_n st).2 k
        (st k).known) (List.range loc_n) (st k).dist (st k).pred dp hdp v
  · rw [h2 k hk]
    exact Or.inl rfl

/-- A known flag is never cleared across one round. -/
lemma dijkstraRound_known_mono {mat : ℕ → ℕ} {n p loc_n : ℕ}
    {st st' : ℕ → WState} (h : dijkstraRound mat n p loc_n st = some st')
    (k v : ℕ) (hkn : (st k).known v = true) : (st' k).known v = true := by
  obtain ⟨h1, h2⟩ := dijkstraRound_some_elim h
  by_cases hk : k < p
  · rcases h1 k hk with ⟨w, hw, hst⟩
    rcases workerRound_some_elim hw with ⟨dp, _, hww⟩
    rw [hst, hww]
    exact knAfter_mono hkn
  · rw [h2 k hk]
    exact hkn

/-! ### Characterization of the sequential minimum scan -/

lemma seqFmdAcc_succ (st : SeqState) (m : ℕ) :
    SeqFmdAcc st (m + 1) = seqFmdStep st (SeqFmdAcc st m) m := by
  unfold SeqFmdAcc
  rw [List.range_succ, List.foldl_append]
  rfl

/-- Invariant of the sequential scan. -/
def SeqFmdInv (st : SeqState) (m : ℕ) : Option (ℕ × ℕ) → Prop
  | none => ∀ v, v < m → st.known v = true
  | some du => du.2 < m ∧ st.known du.2 = false ∧ du.1 = st.dist du.2 ∧
      ∀ v, v < m → st.known v = false →
        du.1 < st.dist v ∨ (du.1 = st.dist v ∧ du.2 ≤ v)

lemma seqFmdAcc_inv (st : SeqState) : ∀ m, SeqFmdInv st m (SeqFmdAcc st m) := by
  intro m
  induction m with
  | zero =>
    have : SeqFmdAcc st 0 = none := rfl
    rw [this]
    exact fun v hv => absurd hv (Nat.not_lt_zero v)
  | succ m ih =>
    rw [seqFmdAcc_succ]
    rcases hacc : SeqFmdAcc st m with _ | du
    · rw [hacc] at ih
      unfold seqFmdStep
      by_cases hk : st.known m
      · rw [if_pos hk]
        intro v hv
        rcases (by omega : v < m ∨ v = m) with h | h
        · exact ih v h
        · exact h ▸ hk
      · rw [if_neg hk]
        refine ⟨by omega, by simpa using hk, rfl, fun v hv hkv => ?_⟩
        rcases (by omega : v < m ∨ v = m) with h | h
        · exact absurd (ih v h) (by simp [hkv])
        · exact Or.inr ⟨by rw [h], by omega⟩
    · rw [hacc] at ih
      obtain ⟨h1, h2, h3, h4⟩ := ih
      unfold seqFmdStep
      by_cases hk : st.known m
      · rw [if_pos hk]
        refine ⟨by omega, h2, h3, fun v hv hkv => ?_⟩
        rcases (by omega : v < m ∨ v = m) with h | h
        · exact h4 v h hkv
        · exact absurd (h ▸ hkv) (by simp [hk])
      · rw [if_neg hk]
        dsimp only
        by_cases hd : st.dist m < du.1
        · rw [if_pos hd]
          refine ⟨by omega, by simpa using hk, rfl, fun v hv hkv => ?_⟩
          rcases (by omega : v < m ∨ v = m) with h | h
          · rcases h4 v h hkv with h' | ⟨h', _⟩
            · exact Or.inl (by omega)
            · exact Or.inl (by omega)
          · exact Or.inr ⟨by rw [h], by omega⟩
        · rw [if_neg hd]
          refine ⟨by omega, h2, h3, fun v hv hkv => ?_⟩
          rcases (by omega : v < m ∨ v = m) with h | h
          · exact h4 v h hkv
          · subst h
            rcases Nat.lt_or_ge du.1 (st.dist v) with h' | h'
            · exact Or.inl h'
            · exact Or.inr ⟨by omega, by omega⟩

/-! ### Simulation of the distributed engine by the sequential reference -/

/-- The simulation relation: the distributed per-worker states agree
pointwise with the sequential reference at every global vertex. -/
def theRel (n loc_n : ℕ) (st : ℕ → WState) (s : SeqState) : Prop :=
  ∀ g, g < n →
    (st (g / loc_n)).dist (g % loc_n) = s.dist g ∧
    (st (g / loc_n)).pred (g % loc_n) = s.pred g ∧
    (st (g / loc_n)).known (g % loc_n) = s.known g

lemma theRel_at {n loc_n p k v : ℕ} {st : ℕ → WState} {s : SeqState}
    (hrel : theRel n loc_n st s) (hn : n = p * loc_n)
    (hk : k < p) (hv : v < loc_n) :
    (st k).dist v = s.dist (k * loc_n + v) ∧
    (st k).pred v = s.pred (k * loc_n + v) ∧
    (st k).known v = s.known (k * loc_n + v) := by
  have hg : k * loc_n + v < n := hn ▸ block_lt hk hv
  have h := hrel (k * loc_n + v) hg
  rwa [block_div k hv, block_mod k hv] at h

lemma theRel_init (mat : ℕ → ℕ) (n loc_n p : ℕ) (hn : n = p * loc_n)
    (hl : 0 < loc_n) :
    theRel n loc_n (initState mat n loc_n) (seqInit mat) := by
  intro g hg
  have hv : g % loc_n < loc_n := Nat.mod_lt g hl
  have hgd := block_decomp hl g
  refine ⟨?_, rfl, ?_⟩
  · show locMat mat n loc_n (g / loc_n) (g % loc_n) = mat g
    unfold locMat blkColIndex
    rw [Nat.div_eq_of_lt hv, Nat.mod_eq_of_lt hv, zero_mul, zero_add]
    exact congrArg mat hgd
  · show (g / loc_n == 0 && g % loc_n == 0) = (g == 0)
    by_cases hg0 : g = 0
    · subst hg0
      simp
    · have h2 : (g == 0) = false := by simp [hg0]
      rw [h2]
      by_cases hq : g / loc_n = 0
      · rw [hq, zero_mul, zero_add] at hgd
        have hr : g % loc_n ≠ 0 := by rw [hgd]; exact hg0
        simp [hq, hr]
      · simp [hq]

lemma knAfter_of_ne {loc_n u k : ℕ} (h : u / loc_n ≠ k) (kn : ℕ → Bool) :
    knAfter loc_n u k kn = kn := by
  unfold knAfter
  rw [if_neg (by simpa using h)]

lemma knAfter_of_eq {loc_n u k : ℕ} (h : u / loc_n = k) (kn : ℕ → Bool) :
    knAfter loc_n u k kn = Function.update kn (u % loc_n) true := by
  unfold knAfter
  rw [if_pos (by simpa using h)]

lemma sentinel_div_ge {p loc_n n : ℕ} (hl : 0 < loc_n) (hn : n = p * loc_n)
    (hni : n ≤ INFINITY) : ∀ k, k < p → INFINITY / loc_n ≠ k := by
  intro k hk
  have hp : p ≤ INFINITY / loc_n :=
    (Nat.le_div_iff_mul_le hl).mpr (le_trans (le_of_eq hn.symm) hni)
  omega

lemma div_lt_p {p loc_n g n : ℕ} (hn : n = p * loc_n) (hg : g < n) :
    g / loc_n < p := by
  apply Nat.div_lt_of_lt_mul
  rw [mul_comm loc_n p, ← hn]
  exact hg

/-- One successful distributed round is simulated by one sequential round. -/
lemma simStep {mat : ℕ → ℕ} {n p loc_n : ℕ} {st st' : ℕ → WState}
    {s : SeqState} (hp : 0 < p) (hl : 0 < loc_n) (hn : n = p * loc_n)
    (hni : n ≤ INFINITY) (hrel : theRel n loc_n st s)
    (h : dijkstraRound mat n p loc_n st = some st') :
    theRel n loc_n st' (seqStep mat n s) := by
  have hloc : loc_n ≤ INFINITY :=
    le_trans (hn ▸ Nat.le_mul_of_pos_left loc_n hp) hni
  obtain ⟨hworkers, _hrest⟩ := dijkstraRound_some_elim h
  rcases globalMin_spec p loc_n st hloc with
    ⟨hgm, _hall⟩ | ⟨k₀, hk₀, v₀, hv₀, hkn₀, hd₀, hgm, hmin⟩
  · -- sentinel round: every worker contributed (INFINITY, INFINITY)
    by_cases hex : ∃ k, k < p ∧ ∃ v, v < loc_n ∧ (st k).known v = false
    · -- an unknown local vertex remains: the round would read out of
      -- bounds, contradicting its success
      exfalso
      rcases hex with ⟨k, hk, v, hv, hkv⟩
      rcases hworkers k hk with ⟨w, hw, _⟩
      rw [hgm] at hw
      dsimp only at hw
      have hka : knAfter loc_n INFINITY k (st k).known = (st k).known :=
        knAfter_of_ne (sentinel_div_ge hl hn hni k hk) _
      have hrl : relaxLoop mat n loc_n k INFINITY INFINITY
          ((st k).known) (List.range loc_n) (st k).dist (st k).pred = none :=
        relaxLoop_oob mat n loc_n k INFINITY INFINITY (st k).known
          (Nat.mul_le_mul_right loc_n hni) (List.range loc_n)
          (st k).dist (st k).pred ⟨v, List.mem_range.mpr hv, hkv⟩
      unfold workerRound at hw
      rw [hka, hrl] at hw
      cases hw
    · -- every vertex is already known everywhere: both sides are no-ops
      have hallkn : ∀ k, k < p → ∀ v, v < loc_n → (st k).known v = true := by
        intro k hk v hv
        cases hb : (st k).known v
        · exact absurd ⟨k, hk, v, hv, hb⟩ hex
        · rfl
      have hsk : ∀ g, g < n → s.known g = true := by
        intro g hg
        have hk : g / loc_n < p := div_lt_p hn hg
        have hv : g % loc_n < loc_n := Nat.mod_lt g hl
        rw [← (hrel g hg).2.2]
        exact hallkn _ hk _ hv
      have hsf : seqFindMin n s = none := by
        rcases hfm : seqFindMin n s with _ | du
        · rfl
        · have hinv := seqFmdAcc_inv s n
          have hfm' : SeqFmdAcc s n = some du := hfm
          rw [hfm'] at hinv
          simp only [SeqFmdInv] at hinv
          exact absurd (hsk du.2 hinv.1) (by simp [hinv.2.1])
      have hstep : seqStep mat n s = s := by unfold seqStep; rw [hsf]
      rw [hstep]
      intro g hg
      have hk : g / loc_n < p := div_lt_p hn hg
      have hv : g % loc_n < loc_n := Nat.mod_lt g hl
      rcases hworkers _ hk with ⟨w, hw, hst'⟩
      rw [hgm] at hw
      dsimp only at hw
      have hka : knAfter loc_n INFINITY (g / loc_n)
          (st (g / loc_n)).known = (st (g / loc_n)).known :=
        knAfter_of_ne (sentinel_div_ge hl hn hni _ hk) _
      have hrl := relaxLoop_all_known mat n loc_n (g / loc_n) INFINITY INFINITY
        ((st (g / loc_n)).known) (List.range loc_n)
        (st (g / loc_n)).dist (st (g / loc_n)).pred
        (fun v' hv' => hallkn _ hk v' (List.mem_range.mp hv'))
      unfold workerRound at hw
      rw [hka, hrl] at hw
      dsimp only at hw
      have hwv : w = ⟨(st (g / loc_n)).dist, (st (g / loc_n)).pred,
          (st (g / loc_n)).known⟩ := (Option.some_inj.mp hw).symm
      rw [hst', hwv]
      exact hrel g hg
  · -- a finite winner (st k₀).dist v₀ at global vertex k₀ * loc_n + v₀
    have hgm' : globalMin p loc_n st =
        ((st k₀).dist v₀, k₀ * loc_n + v₀) :=
      hgm.trans (Prod.ext rfl (add_comm v₀ (k₀ * loc_n)))
    have hU : k₀ * loc_n + v₀ < n := hn ▸ block_lt hk₀ hv₀
    have hUdiv : (k₀ * loc_n + v₀) / loc_n = k₀ := block_div k₀ hv₀
    have hUmod : (k₀ * loc_n + v₀) % loc_n = v₀ := block_mod k₀ hv₀
    obtain ⟨hdU, _, hknU⟩ := theRel_at hrel hn hk₀ hv₀
    have hsU_kn : s.known (k₀ * loc_n + v₀) = false := by
      rw [← hknU]; exact hkn₀
    have hsU_d : s.dist (k₀ * loc_n + v₀) = (st k₀).dist v₀ := hdU.symm
    have hsf : seqFindMin n s = some ((st k₀).dist v₀, k₀ * loc_n + v₀) := by
      have hinv := seqFmdAcc_inv s n
      rcases hfm : seqFindMin n s with _ | du
      · have hfm' : SeqFmdAcc s n = none := hfm
        rw [hfm'] at hinv
        simp only [SeqFmdInv] at hinv
        exact absurd (hinv (k₀ * loc_n + v₀) hU) (by simp [hsU_kn])
      · have hfm' : SeqFmdAcc s n = some du := hfm
        rw [hfm'] at hinv
        simp only [SeqFmdInv] at hinv
        obtain ⟨hdu1, hdu2, hdu3, hdu4⟩ := hinv
        have hA := hdu4 (k₀ * loc_n + v₀) hU hsU_kn
        rw [hsU_d] at hA
        have hk₁ : du.2 / loc_n < p := div_lt_p hn hdu1
        have hv₁ : du.2 % loc_n < loc_n := Nat.mod_lt _ hl
        obtain ⟨hd₁, _, hkn₁⟩ := theRel_at hrel hn hk₁ hv₁
        rw [block_decomp hl du.2] at hd₁ hkn₁
        have hB := hmin (du.2 / loc_n) hk₁ (du.2 % loc_n) hv₁
          (by rw [hkn₁]; exact hdu2)
        rw [hd₁] at hB
        have hid : du.2 % loc_n + du.2 / loc_n * loc_n = du.2 := by
          rw [add_comm]; exact block_decomp hl du.2
        rw [hid] at hB
        have hBid : v₀ + k₀ * loc_n = k₀ * loc_n + v₀ := add_comm _ _
        rw [hBid] at hB
        have hdu21 : du.1 = (st k₀).dist v₀ := by
          rcases hA with hlt | ⟨heq, _⟩
          · rcases hB with hlt2 | ⟨heq2, _⟩
            · omega
            · omega
          · exact heq
        have hdu22 : du.2 = k₀ * loc_n + v₀ := by
          rcases hA with hlt | ⟨heq, hle⟩
          · rcases hB with hlt2 | ⟨heq2, _⟩
            · omega
            · omega
          · rcases hB with hlt2 | ⟨heq2, hge⟩
            · omega
            · exact le_antisymm hle hge
        exact congrArg some (Prod.ext hdu21 hdu22)
    have hstep : seqStep mat n s =
        seqUpdate mat n ((st k₀).dist v₀) (k₀ * loc_n + v₀) s := by
      unfold seqStep; rw [hsf]
    rw [hstep]
    intro g hg
    have hk : g / loc_n < p := div_lt_p hn hg
    have hv : g % loc_n < loc_n := Nat.mod_lt g hl
    have hgd : g / loc_n * loc_n + g % loc_n = g := block_decomp hl g
    rcases hworkers _ hk with ⟨w, hw, hst'⟩
    rw [hgm'] at hw
    dsimp only at hw
    rcases workerRound_some_elim hw with ⟨dp, hdp, hwe⟩
    have hknA : knAfter loc_n (k₀ * loc_n + v₀) (g / loc_n)
        (st (g / loc_n)).known (g % loc_n) =
        Function.update s.known (k₀ * loc_n + v₀) true g := by
      by_cases hkk : g / loc_n = k₀
      · rw [knAfter_of_eq (by rw [hUdiv, hkk]), hUmod]
        by_cases hvv : g % loc_n = v₀
        · have hgU : g = k₀ * loc_n + v₀ := by rw [← hgd, hkk, hvv]
          rw [hvv, hkk, hgU, Function.update_same, Function.update_same]
        · rw [Function.update_noteq hvv, Function.update_noteq
            (fun hcon : g = k₀ * loc_n + v₀ => hvv (by
              rw [hcon, hUmod]))]
          exact (hrel g hg).2.2
      · rw [knAfter_of_ne (fun hc => hkk (hUdiv ▸ hc).symm),
          Function.update_noteq (fun hcon : g = k₀ * loc_n + v₀ => hkk (by
            rw [hcon, hUdiv]))]
        exact (hrel g hg).2.2
    have hmatA : locMat mat n loc_n (g / loc_n)
        ((k₀ * loc_n + v₀) * loc_n + g % loc_n) =
        mat ((k₀ * loc_n + v₀) * n + g) := by
      unfold locMat blkColIndex
      rw [block_div (k₀ * loc_n + v₀) hv, block_mod (k₀ * loc_n + v₀) hv]
      exact congrArg mat (by rw [add_assoc, hgd])
    have hrli := relaxLoop_inbounds mat n loc_n (g / loc_n)
      (k₀ * loc_n + v₀) ((st k₀).dist v₀)
      (knAfter loc_n (k₀ * loc_n + v₀) (g / loc_n) (st (g / loc_n)).known)
      hU (List.range loc_n) (List.nodup_range loc_n)
      (fun v' hv' => List.mem_range.mp hv')
      (st (g / loc_n)).dist (st (g / loc_n)).pred
    rw [hrli] at hdp
    have hdpe := (Option.some_inj.mp hdp)
    rw [← hdpe] at hwe
    rw [hst', hwe]
    dsimp only
    refine ⟨?_, ?_, ?_⟩
    · show (if g % loc_n ∈ List.range loc_n ∧ _ ∧ _ then _ else _) = _
      rw [hknA, hmatA, (hrel g hg).1]
      show _ = (if g < n ∧ _ ∧ _ then _ else _)
      simp only [List.mem_range, hv, hg, true_and]
    · show (if g % loc_n ∈ List.range loc_n ∧ _ ∧ _ then _ else _) = _
      rw [hknA, hmatA, (hrel g hg).1, (hrel g hg).2.1]
      show _ = (if g < n ∧ _ ∧ _ then _ else _)
      simp only [List.mem_range, hv, hg, true_and]
    · exact hknA

lemma seqIter_eq_iterate (mat : ℕ → ℕ) (n : ℕ) :
    ∀ t, seqIter mat n t = (seqStep mat n)^[t] (seqInit mat) := by
  intro t
  induction t with
  | zero => rfl
  | succ t ih =>
    show seqStep mat n (seqIter mat n t) = _
    rw [ih, Function.iterate_succ_apply']

lemma simIterGen {mat : ℕ → ℕ} {n p loc_n : ℕ} (hp : 0 < p) (hl : 0 < loc_n)
    (hn : n = p * loc_n) (hni : n ≤ INFINITY) :
    ∀ (t : ℕ) (st : ℕ → WState) (s : SeqState) (st' : ℕ → WState),
      theRel n loc_n st s →
      dijkstraIter mat n p loc_n t st = some st' →
      theRel n loc_n st' ((seqStep mat n)^[t] s) := by
  intro t
  induction t with
  | zero =>
    intro st s st' hrel h
    cases h
    exact hrel
  | succ t ih =>
    intro st s st' hrel h
    unfold dijkstraIter at h
    rcases hr : dijkstraRound mat n p loc_n st with _ | st₁
    · rw [hr] at h; cases h
    · rw [hr] at h
      dsimp only at h
      rw [Function.iterate_succ_apply]
      exact ih st₁ (seqStep mat n s) st' (simStep hp hl hn hni hrel hr) h

/-- At every round boundary of the distributed engine the reached state
agrees with the sequential reference after the same number of rounds. -/
lemma simBoundary {mat : ℕ → ℕ} {n p : ℕ} (hp : 0 < p) (hdvd : p ∣ n)
    (hn0 : 0 < n) (hni : n ≤ INFINITY) (t : ℕ) {st' : ℕ → WState}
    (h : dijkstraIter mat n p (n / p) t (initState mat n (n / p)) = some st') :
    theRel n (n / p) st' (seqIter mat n t) := by
  have hn : n = p * (n / p) := (Nat.mul_div_cancel' hdvd).symm
  have hl : 0 < n / p := Nat.div_pos (Nat.le_of_dvd hn0 hdvd) hp
  have hrel0 := theRel_init mat n (n / p) p hn hl
  have hres := simIterGen hp hl hn hni t _ _ _ hrel0 h
  rwa [← seqIter_eq_iterate] at hres

/-- The gathered final state agrees with the sequential reference run. -/
lemma simRun {mat : ℕ → ℕ} {n p : ℕ} (hp : 0 < p) (hdvd : p ∣ n)
    (hn0 : 0 < n) (hni : n ≤ INFINITY) {st : ℕ → WState}
    (h : dijkstraRun mat n p = some st) :
    theRel n (n / p) st (seqRun mat n) :=
  simBoundary hp hdvd hn0 hni (n - 1) h

/-! ### Invariants of the sequential reference -/

lemma seqStep_known_mono {mat : ℕ → ℕ} {n : ℕ} {s : SeqState} {v : ℕ}
    (h : s.known v = true) : (seqStep mat n s).known v = true := by
  unfold seqStep
  rcases hfm : seqFindMin n s with _ | du
  · exact h
  · show Function.update s.known du.2 true v = true
    by_cases hv : v = du.2
    · rw [hv, Function.update_same]
    · rwa [Function.update_noteq hv]

lemma seq_known_source (mat : ℕ → ℕ) (n : ℕ) :
    ∀ t, (seqIter mat n t).known 0 = true := by
  intro t
  induction t with
  | zero => rfl
  | succ t ih => exact seqStep_known_mono ih

/-- Path-cost consistency: every non-source vertex is priced by its
predecessor edge, and predecessors are always known and in range. -/
def predConsistent (mat : ℕ → ℕ) (n : ℕ) (s : SeqState) : Prop :=
  ∀ v, v < n → v ≠ 0 →
    s.pred v < n ∧ s.known (s.pred v) = true ∧
    s.dist v = s.dist (s.pred v) + mat (s.pred v * n + v)

lemma seqStep_predConsistent {mat : ℕ → ℕ} {n : ℕ} {s : SeqState}
    (hps : predConsistent mat n s) :
    predConsistent mat n (seqStep mat n s) := by
  intro v hv hv0
  unfold seqStep
  rcases hfm : seqFindMin n s with _ | du
  · exact hps v hv hv0
  · have hinv := seqFmdAcc_inv s n
    have hfm' : SeqFmdAcc s n = some du := hfm
    rw [hfm'] at hinv
    simp only [SeqFmdInv] at hinv
    obtain ⟨hdu1, hdu2, hdu3, _⟩ := hinv
    show (seqUpdate mat n du.1 du.2 s).pred v < n ∧ _ ∧ _
    have hdist_u : (seqUpdate mat n du.1 du.2 s).dist du.2 = s.dist du.2 := by
      show (if _ ∧ _ ∧ _ then _ else _) = s.dist du.2
      rw [if_neg]
      rintro ⟨_, hku, _⟩
      rw [Function.update_same] at hku
      cases hku
    by_cases hc : v < n ∧ Function.update s.known du.2 true v = false ∧
        du.1 + mat (du.2 * n + v) < s.dist v
    · have hpv : (seqUpdate mat n du.1 du.2 s).pred v = du.2 := by
        show (if _ ∧ _ ∧ _ then _ else _) = du.2
        rw [if_pos hc]
      have hdv : (seqUpdate mat n du.1 du.2 s).dist v =
          du.1 + mat (du.2 * n + v) := by
        show (if _ ∧ _ ∧ _ then _ else _) = _
        rw [if_pos hc]
      rw [hpv, hdv, hdist_u]
      refine ⟨hdu1, ?_, by rw [← hdu3]⟩
      show Function.update s.known du.2 true du.2 = true
      rw [Function.update_same]
    · have hpv : (seqUpdate mat n du.1 du.2 s).pred v = s.pred v := by
        show (if _ ∧ _ ∧ _ then _ else _) = _
        rw [if_neg hc]
      have hdv : (seqUpdate mat n du.1 du.2 s).dist v = s.dist v := by
        show (if _ ∧ _ ∧ _ then _ else _) = _
        rw [if_neg hc]
      obtain ⟨hp1, hp2, hp3⟩ := hps v hv hv0
      have hdp : (seqUpdate mat n du.1 du.2 s).dist (s.pred v) =
          s.dist (s.pred v) := by
        show (if _ ∧ _ ∧ _ then _ else _) = _
        rw [if_neg]
        rintro ⟨_, hku, _⟩
        by_cases hpd : s.pred v = du.2
        · rw [hpd, Function.update_same] at hku; cases hku
        · rw [Function.update_noteq hpd, hp2] at hku; cases hku
      rw [hpv, hdv, hdp]
      refine ⟨hp1, ?_, hp3⟩
      show Function.update s.known du.2 true (s.pred v) = true
      by_cases hpd : s.pred v = du.2
      · rw [hpd, Function.update_same]
      · rw [Function.update_noteq hpd]; exact hp2

lemma seq_predConsistent (mat : ℕ → ℕ) (n : ℕ) (h0 : mat 0 = 0) :
    ∀ t, predConsistent mat n (seqIter mat n t) := by
  intro t
  induction t with
  | zero =>
    intro v hv hv0
    refine ⟨show 0 < n by omega, rfl, ?_⟩
    show mat v = mat 0 + mat (0 * n + v)
    rw [h0, zero_mul, zero_add, zero_add]
  | succ t ih => exact seqStep_predConsistent ih

/-! ### Acyclicity of the predecessor relation -/

/-- Following f from v reaches the source 0 within m steps, every visited
non-source vertex being in range. -/
def chainTo0 (f : ℕ → ℕ) (n : ℕ) : ℕ → ℕ → Prop
  | 0, v => v = 0
  | m + 1, v => v = 0 ∨ (v < n ∧ chainTo0 f n m (f v))

/-- Chains visiting only known vertices. -/
def knChain (f : ℕ → ℕ) (kn : ℕ → Bool) (n : ℕ) : ℕ → ℕ → Prop
  | 0, v => v = 0
  | m + 1, v => v = 0 ∨ (v < n ∧ kn v = true ∧ knChain f kn n m (f v))

lemma chainTo0_zero (f : ℕ → ℕ) (n : ℕ) : ∀ m, chainTo0 f n m 0
  | 0 => rfl
  | m + 1 => Or.inl rfl

lemma chainTo0_mono {f : ℕ → ℕ} {n : ℕ} :
    ∀ {m v}, chainTo0 f n m v → chainTo0 f n (m + 1) v := by
  intro m
  induction m with
  | zero => intro v h; exact Or.inl h
  | succ m ih =>
    intro v h
    rcases h with h | ⟨hv, hc⟩
    · exact Or.inl h
    · exact Or.inr ⟨hv, ih hc⟩

lemma chainTo0_le {f : ℕ → ℕ} {n : ℕ} {m m' v : ℕ} (h : m ≤ m')
    (hc : chainTo0 f n m v) : chainTo0 f n m' v := by
  induction h with
  | refl => exact hc
  | step _ ih => exact chainTo0_mono ih

lemma knChain_drop {f : ℕ → ℕ} {kn : ℕ → Bool} {n : ℕ} :
    ∀ {m v}, knChain f kn n m v → chainTo0 f n m v := by
  intro m
  induction m with
  | zero => intro v h; exact h
  | succ m ih =>
    intro v h
    rcases h with h | ⟨hv, _, hc⟩
    · exact Or.inl h
    · exact Or.inr ⟨hv, ih hc⟩

lemma knChain_mono_m {f : ℕ → ℕ} {kn : ℕ → Bool} {n : ℕ} :
    ∀ {m v}, knChain f kn n m v → knChain f kn n (m + 1) v := by
  intro m
  induction m with
  | zero => intro v h; exact Or.inl h
  | succ m ih =>
    intro v h
    rcases h with h | ⟨hv, hk, hc⟩
    · exact Or.inl h
    · exact Or.inr ⟨hv, hk, ih hc⟩

lemma knChain_transfer {f f' : ℕ → ℕ} {kn kn' : ℕ → Bool} {n : ℕ}
    (hf : ∀ w, w < n → kn w = true → f' w = f w)
    (hkn : ∀ w, kn w = true → kn' w = true) :
    ∀ {m v}, knChain f kn n m v → knChain f' kn' n m v := by
  intro m
  induction m with
  | zero => intro v h; exact h
  | succ m ih =>
    intro v h
    rcases h with h | ⟨hv, hk, hc⟩
    · exact Or.inl h
    · refine Or.inr ⟨hv, hkn v hk, ?_⟩
      rw [hf v hv hk]
      exact ih hc

/-- The chain invariant: predecessors of non-source vertices are in range
and known, and every known vertex chains to the source in at most t steps
through known vertices. -/
def chainInv (n : ℕ) (s : SeqState) (t : ℕ) : Prop :=
  (∀ v, v < n → v ≠ 0 → s.pred v < n ∧ s.known (s.pred v) = true) ∧
  (∀ v, v < n → s.known v = true → knChain s.pred s.known n t v)

lemma seqStep_chainInv {mat : ℕ → ℕ} {n : ℕ} {s : SeqState} {t : ℕ}
    (hkn0 : s.known 0 = true) (hci : chainInv n s t) :
    chainInv n (seqStep mat n s) (t + 1) := by
  obtain ⟨hU, hK⟩ := hci
  unfold seqStep
  rcases hfm : seqFindMin n s with _ | du
  · exact ⟨hU, fun v hv hk => knChain_mono_m (hK v hv hk)⟩
  · have hinv := seqFmdAcc_inv s n
    have hfm' : SeqFmdAcc s n = some du := hfm
    rw [hfm'] at hinv
    simp only [SeqFmdInv] at hinv
    obtain ⟨hdu1, hdu2, _, _⟩ := hinv
    have hdu0 : du.2 ≠ 0 := fun hc => by rw [hc, hkn0] at hdu2; cases hdu2
    have hkn_mono : ∀ w, s.known w = true →
        (seqUpdate mat n du.1 du.2 s).known w = true := by
      intro w hw
      show Function.update s.known du.2 true w = true
      by_cases hwd : w = du.2
      · rw [hwd, Function.update_same]
      · rwa [Function.update_noteq hwd]
    have hpred_known : ∀ w, w < n → s.known w = true →
        (seqUpdate mat n du.1 du.2 s).pred w = s.pred w := by
      intro w hw hkw
      show (if _ ∧ _ ∧ _ then _ else _) = _
      rw [if_neg]
      rintro ⟨_, hku, _⟩
      by_cases hwd : w = du.2
      · rw [hwd, Function.update_same] at hku; cases hku
      · rw [Function.update_noteq hwd, hkw] at hku; cases hku
    have hpred_u : (seqUpdate mat n du.1 du.2 s).pred du.2 = s.pred du.2 := by
      show (if _ ∧ _ ∧ _ then _ else _) = _
      rw [if_neg]
      rintro ⟨_, hku, _⟩
      rw [Function.update_same] at hku
      cases hku
    constructor
    · intro v hv hv0
      by_cases hc : v < n ∧ Function.update s.known du.2 true v = false ∧
          du.1 + mat (du.2 * n + v) < s.dist v
      · have hpv : (seqUpdate mat n du.1 du.2 s).pred v = du.2 := by
          show (if _ ∧ _ ∧ _ then _ else _) = _
          rw [if_pos hc]
        rw [hpv]
        refine ⟨hdu1, ?_⟩
        show Function.update s.known du.2 true du.2 = true
        rw [Function.update_same]
      · have hpv : (seqUpdate mat n du.1 du.2 s).pred v = s.pred v := by
          show (if _ ∧ _ ∧ _ then _ else _) = _
          rw [if_neg hc]
        rw [hpv]
        obtain ⟨hp1, hp2⟩ := hU v hv hv0
        exact ⟨hp1, hkn_mono _ hp2⟩
    · intro v hv hk'
      by_cases hvd : v = du.2
      · subst hvd
        refine Or.inr ⟨hv, hk', ?_⟩
        rw [hpred_u]
        obtain ⟨hp1, hp2⟩ := hU du.2 hv hdu0
        exact knChain_transfer hpred_known hkn_mono (hK _ hp1 hp2)
      · have hkold : s.known v = true := by
          have : Function.update s.known du.2 true v = true := hk'
          rwa [Function.update_noteq hvd] at this
        exact knChain_mono_m
          (knChain_transfer hpred_known hkn_mono (hK v hv hkold))

lemma seq_chainInv (mat : ℕ → ℕ) (n : ℕ) :
    ∀ t, chainInv n (seqIter mat n t) t := by
  intro t
  induction t with
  | zero =>
    constructor
    · intro v hv hv0
      exact ⟨show 0 < n by omega, rfl⟩
    · intro v _ hk
      have h2 : (v == 0) = true := hk
      have : v = 0 := by simpa using h2
      exact this
  | succ t ih => exact seqStep_chainInv (seq_known_source mat n t) ih

/-- At every round boundary every vertex chains to the source within n
steps. -/
lemma seq_chain_bound (mat : ℕ → ℕ) (n : ℕ) (t : ℕ) (ht : t + 1 ≤ n) :
    ∀ v, v < n → chainTo0 (seqIter mat n t).pred n n v := by
  intro v hv
  obtain ⟨hU, hK⟩ := seq_chainInv mat n t
  by_cases hv0 : v = 0
  · rw [hv0]; exact chainTo0_zero _ n n
  · obtain ⟨hp1, hp2⟩ := hU v hv hv0
    have hc : chainTo0 (seqIter mat n t).pred n (t + 1) v :=
      Or.inr ⟨hv, knChain_drop (hK _ hp1 hp2)⟩
    exact chainTo0_le ht hc

/-! ### Coverage of the known sets -/

/-- Number of known vertices of the sequential reference. -/
def knownCard (n : ℕ) (s : SeqState) : ℕ :=
  ((Finset.range n).filter (fun g => s.known g = true)).card

lemma seq_coverage_card (mat : ℕ → ℕ) (n : ℕ) (hn0 : 0 < n) :
    ∀ t, min (t + 1) n ≤ knownCard n (seqIter mat n t) := by
  intro t
  induction t with
  | zero =>
    have h0 : (0 : ℕ) ∈ (Finset.range n).filter
        (fun g => (seqIter mat n 0).known g = true) := by
      simp [Finset.mem_filter, Finset.mem_range, hn0]
      rfl
    have := Finset.card_pos.mpr ⟨0, h0⟩
    unfold knownCard
    omega
  | succ t ih =>
    show min (t + 2) n ≤ knownCard n (seqStep mat n (seqIter mat n t))
    unfold seqStep
    rcases hfm : seqFindMin n (seqIter mat n t) with _ | du
    · have hinv := seqFmdAcc_inv (seqIter mat n t) n
      have hfm' : SeqFmdAcc (seqIter mat n t) n = none := hfm
      rw [hfm'] at hinv
      simp only [SeqFmdInv] at hinv
      have hfull : (Finset.range n).filter
          (fun g => (seqIter mat n t).known g = true) = Finset.range n := by
        apply Finset.filter_true_of_mem
        intro g hg
        exact hinv g (Finset.mem_range.mp hg)
      unfold knownCard
      rw [hfull, Finset.card_range]
      omega
    · have hinv := seqFmdAcc_inv (seqIter mat n t) n
      have hfm' : SeqFmdAcc (seqIter mat n t) n = some du := hfm
      rw [hfm'] at hinv
      simp only [SeqFmdInv] at hinv
      obtain ⟨hdu1, hdu2, _, _⟩ := hinv
      have hfilter : (Finset.range n).filter
          (fun g => (seqUpdate mat n du.1 du.2 (seqIter mat n t)).known g = true) =
          insert du.2 ((Finset.range n).filter
            (fun g => (seqIter mat n t).known g = true)) := by
        ext g
        simp only [Finset.mem_filter, Finset.mem_range, Finset.mem_insert]
        constructor
        · rintro ⟨hg, hk⟩
          by_cases hgd : g = du.2
          · exact Or.inl hgd
          · right
            refine ⟨hg, ?_⟩
            have : Function.update (seqIter mat n t).known du.2 true g = true := hk
            rwa [Function.update_noteq hgd] at this
        · rintro (hgd | ⟨hg, hk⟩)
          · refine ⟨hgd ▸ hdu1, ?_⟩
            show Function.update (seqIter mat n t).known du.2 true g = true
            rw [hgd, Function.update_same]
          · refine ⟨hg, ?_⟩
            show Function.update (seqIter mat n t).known du.2 true g = true
            by_cases hgd : g = du.2
            · rw [hgd, Function.update_same]
            · rwa [Function.update_noteq hgd]
      have hnotmem : du.2 ∉ (Finset.range n).filter
          (fun g => (seqIter mat n t).known g = true) := by
        simp [Finset.mem_filter, hdu2]
      unfold knownCard
      rw [hfilter, Finset.card_insert_of_not_mem hnotmem]
      unfold knownCard at ih
      omega

/-- After n - 1 rounds every vertex is known in the sequential reference. -/
lemma seq_coverage (mat : ℕ → ℕ) (n : ℕ) (hn0 : 0 < n) :
    ∀ g, g < n → (seqRun mat n).known g = true := by
  intro g hg
  have hcard := seq_coverage_card mat n hn0 (n - 1)
  have hmin : min (n - 1 + 1) n = n := by omega
  rw [hmin] at hcard
  have hsub : (Finset.range n).filter
      (fun g => (seqRun mat n).known g = true) = Finset.range n := by
    apply Finset.eq_of_subset_of_card_le (Finset.filter_subset _ _)
    rw [Finset.card_range]
    exact hcard
  have : g ∈ (Finset.range n).filter (fun g => (seqRun mat n).known g = true) := by
    rw [hsub]
    exact Finset.mem_range.mpr hg
  exact (Finset.mem_filter.mp this).2

/-! ### Remaining helpers and concrete inputs -/

/-- The gathered predecessor vector assembled on the coordinator by the
contiguous MPI_Gather in Print_paths. -/
def gatherPreds (p loc_n : ℕ) (st : ℕ → WState) : List ℕ :=
  (List.range (p * loc_n)).map (fun g => gPred loc_n st g)

lemma chainTo0_congr {f f' : ℕ → ℕ} {n : ℕ}
    (h : ∀ w, w < n → f w = f' w) :
    ∀ {m v}, chainTo0 f n m v → chainTo0 f' n m v := by
  intro m
  induction m with
  | zero => intro v hc; exact hc
  | succ m ih =>
    intro v hc
    rcases hc with hc | ⟨hv, hc⟩
    · exact Or.inl hc
    · refine Or.inr ⟨hv, ?_⟩
      rw [← h v hv]
      exact ih hc

/-- A contribution below the sentinel names a real local vertex. -/
lemma myMin_finite_form (st : WState) (loc_n k : ℕ)
    (h : (myMin st loc_n k).1 < INFINITY) :
    ∃ v₀, v₀ < loc_n ∧ myMin st loc_n k = (st.dist v₀, v₀ + k * loc_n) := by
  rcases fmdAcc_inv st.dist st.known loc_n with ⟨hacc, _⟩ | ⟨h1, _, _, _, _⟩
  · exfalso
    unfold myMin Find_min_dist at h
    rw [hacc] at h
    rw [if_neg (lt_irrefl _)] at h
    exact absurd h (lt_irrefl _)
  · refine ⟨(FmdAcc st.dist st.known loc_n).1, h1, ?_⟩
    by_cases hb : Find_min_dist st.dist st.known loc_n < INFINITY
    · unfold myMin
      rw [if_pos hb]
      rfl
    · exfalso
      unfold myMin at h
      rw [if_neg hb] at h
      exact absurd h (lt_irrefl _)

/-- The concrete 4 x 4 scenario matrix of the specification. -/
def mat4ex : ℕ → ℕ := fun i =>
  [0, 1, 2, 3, 4, 0, 5, 6, 7, 8, 0, 9, 8, 7, 6, 0].getD i 0

/-- A valid two-vertex matrix with no edge between the vertices: vertex 1
is unreachable from the source. -/
def mat2disc : ℕ → ℕ := fun i => [0, 1000000, 1000000, 0].getD i 0

/-- A connected 3 x 3 matrix, used with p = 2 (which does not divide 3). -/
def mat3ex : ℕ → ℕ := fun i => [0, 1, 2, 1, 0, 1, 2, 1, 0].getD i 0

/-- A two-vertex matrix whose source self-weight mat[0][0] = 5 is not
zero (the diagonal is a don t-care for the algorithm). -/
def mat2diag : ℕ → ℕ := fun i => [5, 3, 1000000, 0].getD i 0

/-- A small worker state with one unknown vertex at the sentinel
distance. -/
def wAllInf : WState := ⟨fun _ => 1000000, fun _ => 0, fun _ => false⟩

/-- A small worker state with two unknown vertices at distances 3 and
1000000. -/
def wEx : WState := ⟨fun v => [3, 1000000].getD v 0, fun _ => 0, fun _ => false⟩

/-! ### Claim theorems -/

/-- C1 (amended): for every n, p with p dividing n, n at most the sentinel,
and every n x n matrix of weights in [0, 1000000] (1000000 the no-edge
sentinel, diagonal a dont-care), whenever the distributed engine completes
its n - 1 rounds without an out-of-bounds sentinel access (in particular
whenever every round finds a winner below INFINITY), the per-vertex
distances gathered from all workers equal those of the sequential
single-process Dijkstra reference from source 0; p = 1 is the special case
of one worker. -/
theorem claim_C1_amended (n p : ℕ) (mat : ℕ → ℕ) (st : ℕ → WState)
    (hp : 0 < p) (hdvd : p ∣ n) (hni : n ≤ INFINITY)
    (hbound : ∀ i, i < n * n → mat i ≤ INFINITY)
    (hrun : dijkstraRun mat n p = some st) :
    ∀ g, g < n → gDist (n / p) st g = (seqRun mat n).dist g := by
  intro g hg
  have hn0 : 0 < n := by omega
  exact (simRun hp hdvd hn0 hni hrun g hg).1

/-- C1 witness: the 4 x 4 specification scenario with p = 2. -/
theorem claim_C1_witness :
    ∃ st, dijkstraRun mat4ex 4 2 = some st ∧
      gDist 2 st 1 = (seqRun mat4ex 4).dist 1 ∧
      gDist 2 st 3 = (seqRun mat4ex 4).dist 3 := by
  have hs : (dijkstraRun mat4ex 4 2).isSome = true := by decide
  rcases Option.isSome_iff_exists.mp hs with ⟨st, hst⟩
  exact ⟨st, hst,
    claim_C1_amended 4 2 mat4ex st (by decide) ⟨2, rfl⟩ (by decide) (by decide)
      hst 1 (by decide),
    claim_C1_amended 4 2 mat4ex st (by decide) ⟨2, rfl⟩ (by decide) (by decide)
      hst 3 (by decide)⟩

/-- C1 counterexample: on a valid two-vertex matrix whose second vertex is
unreachable, every worker contributes the sentinel in round one, the
winning id is INFINITY, relaxation reads out of bounds and the engine
produces no final distance values at all, while the sequential reference
is defined at the same input; so the claimed equality for every matrix
fails. -/
theorem claim_C1_counterexample :
    dijkstraRun mat2disc 2 1 = none ∧ (seqRun mat2disc 2).dist 1 = 1000000 :=
  ⟨rfl, rfl⟩

/-- C2 (amended): the program performs no divisibility check and raises no
error: when p does not divide n and the engine completes, it emits partial
output of length p * (n / p), which is strictly less than n. -/
theorem claim_C2_amended (n p : ℕ) (mat : ℕ → ℕ) (out : List ℕ)
    (hp : 0 < p) (hnd : ¬ p ∣ n) (hrun : programRun mat n p = some out) :
    out.length = p * (n / p) ∧ p * (n / p) < n := by
  constructor
  · unfold programRun at hrun
    rcases hr : dijkstraRun mat n p with _ | st
    · rw [hr] at hrun; cases hrun
    · rw [hr] at hrun
      simp only [Option.map_some'] at hrun
      have hout : gatherDists p (n / p) st = out := Option.some_inj.mp hrun
      rw [← hout]
      unfold gatherDists
      rw [List.length_map, List.length_range]
  · have h1 : p * (n / p) ≤ n := by
      rw [mul_comm]
      exact Nat.div_mul_le_self n p
    rcases lt_or_eq_of_le h1 with h | h
    · exact h
    · exact absurd ⟨n / p, h.symm⟩ hnd

/-- C2 witness: n = 3, p = 2 produces output of length 2 < 3. -/
theorem claim_C2_witness :
    ([0, 1] : List ℕ).length = 2 * (3 / 2) ∧ 2 * (3 / 2) < 3 :=
  claim_C2_amended 3 2 mat3ex [0, 1] (by decide) (by decide) rfl

/-- C2 counterexample: with n = 3 and p = 2 (which does not divide 3) the
program raises no error of any kind: it runs to completion and emits the
partial distance vector [0, 1] covering only two of the three vertices,
contradicting the claim that a ConfigError aborts the run before the main
loop with no partial output. -/
theorem claim_C2_counterexample :
    ¬ (2 ∣ 3) ∧ programRun mat3ex 3 2 = some [0, 1] :=
  ⟨by decide, rfl⟩

/-- C3 (confirmed): the global min-with-location reduction over the
workers contributions returns one of the contributed pairs, and that pair
is lexicographically least: its distance is minimal, and among
contributions tied at that distance its global vertex id is lowest.  The
reduction is a pure function of the contributions, so every worker
receives the identical result and repeated runs agree. -/
theorem claim_C3 (p loc_n : ℕ) (st : ℕ → WState) (hp : 0 < p) :
    (∃ k, k < p ∧ globalMin p loc_n st = myMin (st k) loc_n k) ∧
    (∀ k, k < p → lexLe (globalMin p loc_n st) (myMin (st k) loc_n k)) := by
  obtain ⟨hmem, hle⟩ := globalMin_mem_le p loc_n st
  refine ⟨?_, hle⟩
  rcases hmem with h | h
  · refine ⟨0, hp, ?_⟩
    rcases myMin_shape (st 0) loc_n 0 with hs | hs
    · rw [h, hs]
    · exfalso
      have hlk := hle 0 hp
      rw [h] at hlk
      unfold lexLe at hlk
      dsimp only at hlk
      omega
  · exact h

/-- C3 witness: the initial state of the 4 x 4 scenario with p = 2. -/
theorem claim_C3_witness :
    (∃ k, k < 2 ∧ globalMin 2 2 (initState mat4ex 4 2) =
        myMin (initState mat4ex 4 2 k) 2 k) ∧
    (∀ k, k < 2 → lexLe (globalMin 2 2 (initState mat4ex 4 2))
        (myMin (initState mat4ex 4 2 k) 2 k)) :=
  claim_C3 2 2 (initState mat4ex 4 2) (by decide)

/-- C4 (amended): in any round in which at least one worker contributes a
pair below the sentinel, the winning vertex id u of the global reduction
satisfies u < n, the known-array index u mod loc_n is within the local
block, and the whole round completes without reaching the out-of-bounds
branch of the guarded matrix access. -/
theorem claim_C4_amended (mat : ℕ → ℕ) (n p loc_n : ℕ) (st : ℕ → WState)
    (hl : 0 < loc_n) (hn : n = p * loc_n)
    (hfin : ∃ k, k < p ∧ (myMin (st k) loc_n k).1 < INFINITY) :
    (globalMin p loc_n st).2 < n ∧
    (globalMin p loc_n st).2 % loc_n < loc_n ∧
    (dijkstraRound mat n p loc_n st).isSome = true := by
  obtain ⟨hmem, hle⟩ := globalMin_mem_le p loc_n st
  rcases hfin with ⟨k, hk, hq⟩
  have hr1 : (globalMin p loc_n st).1 < INFINITY := by
    have hlk := hle k hk
    unfold lexLe at hlk
    omega
  have hUlt : (globalMin p loc_n st).2 < n := by
    rcases hmem with h | ⟨k₁, hk₁, heq⟩
    · rw [h] at hr1
      exact absurd hr1 (lt_irrefl _)
    · have hq₁ : (myMin (st k₁) loc_n k₁).1 < INFINITY := by
        rw [← heq]; exact hr1
      obtain ⟨v₀, hv₀, hform⟩ := myMin_finite_form _ _ _ hq₁
      have h2 : (globalMin p loc_n st).2 = v₀ + k₁ * loc_n := by
        rw [heq, hform]
      have hblk := block_lt hk₁ hv₀
      rw [h2, hn]
      omega
  refine ⟨hUlt, Nat.mod_lt _ hl, ?_⟩
  apply dijkstraRound_isSome_intro
  intro k' hk'
  unfold workerRound
  rw [relaxLoop_inbounds mat n loc_n k' (globalMin p loc_n st).2
    (globalMin p loc_n st).1
    (knAfter loc_n (globalMin p loc_n st).2 k' (st k').known) hUlt
    (List.range loc_n) (List.nodup_range loc_n)
    (fun v' hv' => List.mem_range.mp hv') (st k').dist (st k').pred]
  rfl

/-- C4 witness: round one of the 4 x 4 scenario with p = 2. -/
theorem claim_C4_witness :
    (globalMin 2 2 (initState mat4ex 4 2)).2 < 4 ∧
    (globalMin 2 2 (initState mat4ex 4 2)).2 % 2 < 2 ∧
    (dijkstraRound mat4ex 4 2 2 (initState mat4ex 4 2)).isSome = true :=
  claim_C4_amended mat4ex 4 2 2 (initState mat4ex 4 2) (by decide) rfl
    ⟨0, by decide, by decide⟩

/-- C4 counterexample: from the valid initialization of the disconnected
two-vertex matrix with one worker, round one returns the winning id
1000000, which is not below n = 2, and the round aborts in the
out-of-bounds branch. -/
theorem claim_C4_counterexample :
    (globalMin 1 2 (initState mat2disc 2 2)).2 = 1000000 ∧
    ¬ (globalMin 1 2 (initState mat2disc 2 2)).2 < 2 ∧
    dijkstraRound mat2disc 2 1 2 (initState mat2disc 2 2) = none :=
  ⟨by decide, by decide, rfl⟩

/-- C5 (confirmed): gathering the per-worker blocks with the same strided
block-column layout used to distribute them reconstructs the original
matrix exactly at every entry. -/
theorem claim_C5 (n p : ℕ) (mat : ℕ → ℕ) (hp : 0 < p) (hdvd : p ∣ n) :
    ∀ m, m < n * n →
      gatherMatrix n (n / p) (fun k => scatterBlock mat n (n / p) k) m = mat m := by
  intro m hm
  have hn0 : 0 < n := by
    rcases Nat.eq_zero_or_pos n with h | h
    · subst h; omega
    · exact h
  have hl : 0 < n / p := Nat.div_pos (Nat.le_of_dvd hn0 hdvd) hp
  show scatterBlock mat n (n / p) (m % n / (n / p))
      ((m / n) * (n / p) + m % n % (n / p)) = mat m
  unfold scatterBlock locMat blkColIndex
  have hr : m % n % (n / p) < n / p := Nat.mod_lt _ hl
  rw [block_div (m / n) hr, block_mod (m / n) hr]
  apply congrArg mat
  rw [add_assoc, block_decomp hl (m % n), mul_comm]
  exact Nat.div_add_mod m n

/-- C5 witness: entry (1, 2) of the 4 x 4 scenario with p = 2. -/
theorem claim_C5_witness :
    gatherMatrix 4 2 (fun k => scatterBlock mat4ex 4 2 k) 6 = mat4ex 6 :=
  claim_C5 4 2 mat4ex (by decide) ⟨2, rfl⟩ 6 (by decide)

/-- C6 (amended): for a local block of at most INFINITY columns (so that
a local index can never collide with the sentinel value), a worker holding
at least one unknown vertex with distance strictly below the INFINITY
sentinel contributes the minimum distance over its unknown entries
together with the global id (local id plus column offset) of the first
local vertex attaining that minimum: every other unknown vertex has a
strictly larger distance, or an equal distance and a local id at least
v₀; the worker contributes the sentinel pair exactly when no unknown
entry below INFINITY remains, which happens both when no unknown entry
remains at all and when every remaining unknown entry sits at INFINITY. -/
theorem claim_C6_amended (st : WState) (loc_n k : ℕ)
    (hloc : loc_n ≤ INFINITY) :
    ((∃ v, v < loc_n ∧ st.known v = false ∧ st.dist v < INFINITY) →
      ∃ v₀, v₀ < loc_n ∧ st.known v₀ = false ∧
        myMin st loc_n k = (st.dist v₀, v₀ + k * loc_n) ∧
        ∀ v, v < loc_n → st.known v = false →
          st.dist v₀ < st.dist v ∨ (st.dist v₀ = st.dist v ∧ v₀ ≤ v)) ∧
    ((∀ v, v < loc_n → st.known v = true ∨ INFINITY ≤ st.dist v) →
      myMin st loc_n k = (INFINITY, INFINITY)) := by
  rcases myMin_spec st loc_n k hloc with ⟨hs, hall⟩ | ⟨v₀, hv₀, hkn, hd, heq, hmin⟩
  · constructor
    · rintro ⟨v, hv, hkv, hdv⟩
      rcases hall v hv with h | h
      · exact absurd h (by simp [hkv])
      · omega
    · intro _
      exact hs
  · constructor
    · intro _
      exact ⟨v₀, hv₀, hkn, heq, hmin⟩
    · intro hall
      rcases hall v₀ hv₀ with h | h
      · exact absurd h (by simp [hkn])
      · omega

/-- C6 witness: a worker with unknown entries at distances 3 and INFINITY
contributes (3, global id of the first), and the first-achiever
minimality holds at both unknown entries. -/
theorem claim_C6_witness :
    ∃ v₀, v₀ < 2 ∧ wEx.known v₀ = false ∧
      myMin wEx 2 1 = (wEx.dist v₀, v₀ + 1 * 2) ∧
      ∀ v, v < 2 → wEx.known v = false →
        wEx.dist v₀ < wEx.dist v ∨ (wEx.dist v₀ = wEx.dist v ∧ v₀ ≤ v) :=
  (claim_C6_amended wEx 2 1 (by decide)).1 ⟨0, by decide, by decide, by decide⟩

/-- C6 counterexample: a worker whose single vertex is unknown at distance
INFINITY still has an unknown entry, yet contributes the sentinel pair
(1000000, 1000000) instead of the pair (1000000, 0) with the global id of
that unknown vertex, refuting the claim that the sentinel is contributed
only when no unknown entries remain. -/
theorem claim_C6_counterexample :
    myMin wAllInf 1 0 = (1000000, 1000000) ∧
    myMin wAllInf 1 0 ≠ (1000000, 0) :=
  ⟨by decide, by decide⟩

/-- C7 (amended): after the engine completes, for every vertex v other
than the source, the gathered distance of v equals the gathered distance
of its gathered predecessor plus the matrix weight of the predecessor
edge, provided the source self-weight mat[0][0] is zero; the predecessor
is moreover always in range. -/
theorem claim_C7_amended (n p : ℕ) (mat : ℕ → ℕ) (st : ℕ → WState)
    (hp : 0 < p) (hdvd : p ∣ n) (hni : n ≤ INFINITY) (h0 : mat 0 = 0)
    (hrun : dijkstraRun mat n p = some st) :
    ∀ v, v < n → v ≠ 0 →
      gPred (n / p) st v < n ∧
      gDist (n / p) st v =
        gDist (n / p) st (gPred (n / p) st v) +
          mat (gPred (n / p) st v * n + v) := by
  intro v hv hv0
  have hn0 : 0 < n := by omega
  have hrel := simRun hp hdvd hn0 hni hrun
  obtain ⟨hp1, _, hp3⟩ := seq_predConsistent mat n h0 (n - 1) v hv hv0
  have hgp : gPred (n / p) st v = (seqRun mat n).pred v := (hrel v hv).2.1
  constructor
  · rw [hgp]; exact hp1
  · have hgd : gDist (n / p) st v = (seqRun mat n).dist v := (hrel v hv).1
    have hgd2 : gDist (n / p) st ((seqRun mat n).pred v) =
        (seqRun mat n).dist ((seqRun mat n).pred v) := (hrel _ hp1).1
    rw [hgp, hgd, hgd2]
    exact hp3

/-- C7 witness: vertex 3 in the 4 x 4 scenario with p = 2. -/
theorem claim_C7_witness :
    ∃ st, dijkstraRun mat4ex 4 2 = some st ∧
      gPred 2 st 3 < 4 ∧
      gDist 2 st 3 = gDist 2 st (gPred 2 st 3) + mat4ex (gPred 2 st 3 * 4 + 3) := by
  have hs : (dijkstraRun mat4ex 4 2).isSome = true := by decide
  rcases Option.isSome_iff_exists.mp hs with ⟨st, hst⟩
  exact ⟨st, hst,
    claim_C7_amended 4 2 mat4ex st (by decide) ⟨2, rfl⟩ (by decide) rfl hst 3
      (by decide) (by decide)⟩

/-- C7 counterexample: with source self-weight mat[0][0] = 5 the final
gathered vectors on the two-vertex matrix are dist = [5, 3] and
pred = [0, 0], and 3 is different from 5 + 3 = dist[0] + mat[0][1], so the
claimed identity fails as stated. -/
theorem claim_C7_counterexample :
    (dijkstraRun mat2diag 2 1).map (gatherDists 1 2) = some [5, 3] ∧
    (dijkstraRun mat2diag 2 1).map (gatherPreds 1 2) = some [0, 0] ∧
    ¬ ((3 : ℕ) = 5 + mat2diag (0 * 2 + 1)) :=
  ⟨rfl, rfl, by decide⟩

/-- C8 (confirmed): at every round boundary reachable by the engine, the
gathered predecessor relation is acyclic: following predecessors from any
vertex reaches the source 0 within n steps through in-range vertices, so
the path reconstruction loop of Print_paths terminates for every target
vertex. -/
theorem claim_C8 (n p t : ℕ) (mat : ℕ → ℕ) (st : ℕ → WState)
    (hp : 0 < p) (hdvd : p ∣ n) (hni : n ≤ INFINITY) (ht : t + 1 ≤ n)
    (hiter : dijkstraIter mat n p (n / p) t (initState mat n (n / p)) = some st) :
    ∀ v, v < n → chainTo0 (gPred (n / p) st) n n v := by
  intro v hv
  have hn0 : 0 < n := by omega
  have hrel := simBoundary hp hdvd hn0 hni t hiter
  exact chainTo0_congr (fun w hw => ((hrel w hw).2.1).symm)
    (seq_chain_bound mat n t ht v hv)

/-- C8 witness: the boundary after all three rounds of the 4 x 4 scenario
with p = 2, target vertex 3. -/
theorem claim_C8_witness :
    ∃ st, dijkstraIter mat4ex 4 2 2 3 (initState mat4ex 4 2) = some st ∧
      chainTo0 (gPred 2 st) 4 4 3 := by
  have hs : (dijkstraIter mat4ex 4 2 2 3 (initState mat4ex 4 2)).isSome = true := by
    decide
  rcases Option.isSome_iff_exists.mp hs with ⟨st, hst⟩
  exact ⟨st, hst,
    claim_C8 4 2 3 mat4ex st (by decide) ⟨2, rfl⟩ (by decide) (by decide) hst 3
      (by decide)⟩

/-- C9 (confirmed): across any successful round, the gathered distance of
every vertex either stays unchanged or strictly decreases. -/
theorem claim_C9 (mat : ℕ → ℕ) (n p loc_n : ℕ) (st st' : ℕ → WState)
    (h : dijkstraRound mat n p loc_n st = some st') :
    ∀ g, gDist loc_n st' g = gDist loc_n st g ∨
      gDist loc_n st' g < gDist loc_n st g := by
  intro g
  exact dijkstraRound_dist_mono h (g / loc_n) (g % loc_n)

/-- C9 witness: round one of the 4 x 4 scenario with p = 2, vertex 1. -/
theorem claim_C9_witness :
    ∃ st', dijkstraRound mat4ex 4 2 2 (initState mat4ex 4 2) = some st' ∧
      (gDist 2 st' 1 = gDist 2 (initState mat4ex 4 2) 1 ∨
       gDist 2 st' 1 < gDist 2 (initState mat4ex 4 2) 1) := by
  have hs : (dijkstraRound mat4ex 4 2 2 (initState mat4ex 4 2)).isSome = true := by
    decide
  rcases Option.isSome_iff_exists.mp hs with ⟨st', hst⟩
  exact ⟨st', hst, claim_C9 mat4ex 4 2 2 (initState mat4ex 4 2) st' hst 1⟩

/-- C10 (confirmed): a known flag, once set on a worker, is never cleared
by any later round; and after the engine completes its n - 1 rounds, the
union of the per-worker known sets covers all n vertices. -/
theorem claim_C10 :
    (∀ (mat : ℕ → ℕ) (n p loc_n : ℕ) (st st' : ℕ → WState) (k v : ℕ),
       dijkstraRound mat n p loc_n st = some st' →
       (st k).known v = true → (st' k).known v = true) ∧
    (∀ (mat : ℕ → ℕ) (n p : ℕ) (st : ℕ → WState),
       0 < p → p ∣ n → n ≤ INFINITY →
       dijkstraRun mat n p = some st →
       ∀ g, g < n → gKnown (n / p) st g = true) := by
  constructor
  · intro mat n p loc_n st st' k v h hkn
    exact dijkstraRound_known_mono h k v hkn
  · intro mat n p st hp hdvd hni hrun g hg
    have hn0 : 0 < n := by omega
    have hrel := simRun hp hdvd hn0 hni hrun
    show (st (g / (n / p))).known (g % (n / p)) = true
    rw [(hrel g hg).2.2]
    exact seq_coverage mat n hn0 g hg

/-- C10 witness: monotonicity across round one and full coverage after the
run, both on the 4 x 4 scenario with p = 2. -/
theorem claim_C10_witness :
    (∃ st', dijkstraRound mat4ex 4 2 2 (initState mat4ex 4 2) = some st' ∧
       (st' 0).known 0 = true) ∧
    (∃ st, dijkstraRun mat4ex 4 2 = some st ∧ gKnown 2 st 3 = true) := by
  constructor
  · have hs : (dijkstraRound mat4ex 4 2 2 (initState mat4ex 4 2)).isSome = true := by
      decide
    rcases Option.isSome_iff_exists.mp hs with ⟨st', hst⟩
    exact ⟨st', hst, claim_C10.1 mat4ex 4 2 2 (initState mat4ex 4 2) st' 0 0 hst
      (by decide)⟩
  · have hs : (dijkstraRun mat4ex 4 2).isSome = true := by decide
    rcases Option.isSome_iff_exists.mp hs with ⟨st, hst⟩
    exact ⟨st, hst, claim_C10.2 mat4ex 4 2 st (by decide) ⟨2, rfl⟩ (by decide) hst 3
      (by decide)⟩

end P3
